import Mathlib

/-!
Verification of the WARC codec (slyrz/warc, src/warc.go) against its
natural-language specification.

The development shallowly embeds the Go source at the byte level:

* the decompressed input stream is a `List Nat` of byte values;
* `bufio.Reader.ReadLine` becomes `readLine` (terminator `\n`, an optional
  `\r` before it is stripped; a final unterminated chunk is returned with
  no error, exactly as in Go);
* `Header` (a Go `map[string]string`) becomes an association list with
  unique keys, keys normalised by the ASCII fragment of `strings.ToLower`;
* `Reader.ReadRecord` / `Reader.seekRecord` (warc.go lines 249 to 320)
  become `readRecord` / `seekRecord` over an explicit reader state;
* `Writer.WriteRecord` (warc.go lines 336 to 384) becomes `writeRecord`,
  with `time.Now().Format(time.RFC3339)` abstracted as a `now` parameter.

Loops whose termination metric is the shrinking input are written with an
explicit fuel argument (always instantiated with more fuel than the input
length) so that every definition reduces inside the kernel; unfolding
equations such as `parseHeaderAux_eq` prove that the fuel never runs out,
recovering the recurrence of the Go loop verbatim.
-/

/-- Byte strings: the decompressed stream, lines, header keys and values. -/
abbrev Bytes := List Nat

/-- Encode an ASCII string literal as its list of byte values. -/
def str (s : String) : Bytes := s.data.map Char.toNat

/-- ASCII fragment of Go `strings.ToLower` (warc.go uses it only on header
keys, which the spec restricts to ASCII). -/
def asciiLower (b : Nat) : Nat := if 65 ≤ b ∧ b ≤ 90 then b + 32 else b

/-- ASCII upper-casing of a single byte, as done by `unicode.ToTitle` on
ASCII letters inside `strings.Title`. -/
def asciiUpper (b : Nat) : Nat := if 97 ≤ b ∧ b ≤ 122 then b - 32 else b

/-- Lower-case a byte string (Go `strings.ToLower`, ASCII fragment). -/
def lowerStr (s : Bytes) : Bytes := s.map asciiLower

/-- Word-separator test of Go `strings.Title` restricted to ASCII: letters,
digits and underscore are word characters, everything else separates. -/
def isSepByte (b : Nat) : Bool :=
  !(48 ≤ b && b ≤ 57 || 97 ≤ b && b ≤ 122 || 65 ≤ b && b ≤ 90 || b == 95)

/-- Worker of `titleStr`; `prev` is the previous byte (initially a space). -/
def titleAux : Nat → Bytes → Bytes
  | _, [] => []
  | prev, b :: rest =>
    (if isSepByte prev then asciiUpper b else b) :: titleAux b rest

/-- Go `strings.Title` (ASCII fragment): upper-case the first byte of every
word. Used by the writer on header keys (warc.go line 376). -/
def titleStr (s : Bytes) : Bytes := titleAux 32 s

/-- Go `strings.TrimSpace` space class, ASCII fragment:
tab, newline, vertical tab, form feed, carriage return, space. -/
def isSpaceByte (b : Nat) : Bool :=
  b == 32 || b == 9 || b == 10 || b == 11 || b == 12 || b == 13

/-- Go `strings.TrimSpace` (ASCII fragment): drop leading and trailing
space-class bytes. -/
def trimSpace (s : Bytes) : Bytes :=
  ((s.dropWhile isSpaceByte).reverse.dropWhile isSpaceByte).reverse

/-- Split a byte string at the first occurrence of byte `c`; `none` when `c`
does not occur. Backs both `bufio.ReadLine` (at the newline byte) and
`strings.SplitN(line, ":", 2)`. -/
def splitFirst (c : Nat) : Bytes → Option (Bytes × Bytes)
  | [] => none
  | b :: rest =>
    if b = c then some ([], rest)
    else (splitFirst c rest).map (fun p => (b :: p.1, p.2))

/-- splitKeyValue (warc.go lines 156 to 163): split a header line on the
first colon; a line with no colon yields two empty strings; the value is
space-trimmed. -/
def splitKeyValue (line : Bytes) : Bytes × Bytes :=
  match splitFirst 58 line with
  | none => ([], [])
  | some (k, v) => (k, trimSpace v)

/-- Strip one trailing carriage return, as `bufio.Reader.ReadLine` does
right before the newline byte. -/
def dropCR (l : Bytes) : Bytes :=
  if l.getLast? = some 13 then l.dropLast else l

/-- Model of `bufio.Reader.ReadLine` as used by `Reader.readLine`
(warc.go lines 224 to 247): `none` is `io.EOF`; a line is the bytes up to
the first newline with an optional carriage return stripped; a final chunk
with no newline is returned with no error (Go returns the buffered bytes
once `ReadSlice` hits EOF with data). The `isPrefix` continuation loop of
`Reader.readLine` only reassembles long lines and is transparent here. -/
def readLine (s : Bytes) : Option (Bytes × Bytes) :=
  if s = [] then none
  else
    match splitFirst 10 s with
    | some (line, rest) => some (dropCR line, rest)
    | none => some (s, [])

/-- Header (warc.go line 77): a Go `map[string]string`. Modelled as an
association list; all keys stored through `Header.set` are lower-cased
first, mirroring the Go methods. -/
abbrev Header := List (Bytes × Bytes)

/-- Raw map lookup, Go `h[k]` on an existing key (no case folding). -/
def lookupRaw : Header → Bytes → Option Bytes
  | [], _ => none
  | (k', v) :: t, k => if k' = k then some v else lookupRaw t k

/-- Raw map write, Go `h[k] = v` (no case folding): replace the value of an
existing key in place, otherwise append a new binding. -/
def setRaw : Header → Bytes → Bytes → Header
  | [], k, v => [(k, v)]
  | (k', v') :: t, k, v =>
    if k' = k then (k, v) :: t else (k', v') :: setRaw t k v

/-- Raw map delete, Go `delete(h, k)` (no case folding). -/
def eraseRaw (h : Header) (k : Bytes) : Header :=
  h.filter (fun p => !(p.1 = k : Bool))

/-- Header.Set (warc.go lines 170 to 173): store under the lower-cased key. -/
def Header.set (h : Header) (k v : Bytes) : Header := setRaw h (lowerStr k) v

/-- Header.Get (warc.go lines 175 to 179): look up the lower-cased key,
empty string when absent (Go map zero value). -/
def Header.get (h : Header) (k : Bytes) : Bytes :=
  (lookupRaw h (lowerStr k)).getD []

/-- Header.Del (warc.go lines 181 to 184). -/
def Header.del (h : Header) (k : Bytes) : Header := eraseRaw h (lowerStr k)

/-- Go `h[k]` read with map zero value, no case folding (used directly by
`ReadRecord` at warc.go line 272 and `WriteRecord` at lines 345 to 353). -/
def Header.getRaw (h : Header) (k : Bytes) : Bytes := (lookupRaw h k).getD []

/-- Decimal digit test for `strconv.Atoi`. -/
def isDigitByte (b : Nat) : Bool := 48 ≤ b && b ≤ 57

/-- Value of an all-digit string; `none` when empty or not all digits. -/
def digitsToNat (ds : Bytes) : Option Nat :=
  if ds = [] then none
  else if ds.all isDigitByte then
    some (ds.foldl (fun a d => a * 10 + (d - 48)) 0)
  else none

/-- Model of `strconv.Atoi` (equivalently `strconv.ParseInt(s, 10, 64)`):
an optional sign, at least one digit, nothing else, and the value must fit
in a signed 64-bit integer (Atoi reports a range error otherwise). -/
def atoi (s : Bytes) : Option Int :=
  let signed : Int × Bytes :=
    match s with
    | [] => (1, [])
    | b :: rest =>
      if b = 43 then (1, rest)
      else if b = 45 then (-1, rest)
      else (1, b :: rest)
  match digitsToNat signed.2 with
  | none => none
  | some n =>
    let v : Int := signed.1 * n
    if -(2 ^ 63) ≤ v ∧ v < 2 ^ 63 then some v else none

/-- Fuel-driven worker for `itoa`; the fuel always exceeds the digit count. -/
def natDigitsFuel : Nat → Nat → Bytes → Bytes
  | 0, _, acc => acc
  | f + 1, n, acc =>
    if n < 10 then (48 + n) :: acc
    else natDigitsFuel f (n / 10) ((48 + n % 10) :: acc)

/-- Model of `strconv.Itoa` on the non-negative lengths the writer feeds it
(warc.go line 345). -/
def itoa (n : Nat) : Bytes := natDigitsFuel (n + 1) n []

/-- View of an `Except` value as a sum, to derive decidable equality. -/
def exceptToSum {ε α : Type} : Except ε α → ε ⊕ α
  | Except.error e => Sum.inl e
  | Except.ok a => Sum.inr a

instance {ε α : Type} [DecidableEq ε] [DecidableEq α] :
    DecidableEq (Except ε α) := fun a b =>
  decidable_of_iff (exceptToSum a = exceptToSum b)
    (by cases a <;> cases b <;> simp [exceptToSum])

/-- Reader mode (warc.go lines 43 to 55). -/
inductive Mode where
  | sequential
  | asynchronous
deriving DecidableEq, Repr

/-- Errors `ReadRecord` can produce over a pure byte stream. `eof` is the
distinguished `io.EOF` value; `framing` is the `fmt.Errorf` of seekRecord
(warc.go line 316) carrying the offending line; `badContentLength` is the
`fmt.Errorf` of ReadRecord (warc.go line 274). Distinct constructors model
distinct Go error values. -/
inductive WErr where
  | eof
  | framing (line : Bytes)
  | badContentLength
deriving DecidableEq, Repr

/-- Reader state: `stream` is the unread part of the decompressed stream
(the `bufio.Reader` cursor); `current` models the `record` field:
`none` when no record is live, `some l` when a record was returned and, in
sequential mode, `l` bytes of its content view are still unconsumed (the
remaining `io.LimitReader` budget). In asynchronous mode the stored number
is irrelevant because the drain loop is skipped; `readRecord` stores 0. -/
structure RState where
  stream : Bytes
  current : Option Nat
deriving DecidableEq, Repr

/-- Record content (warc.go lines 137 to 154, `sliceReader`): in
asynchronous mode an owned copy (`bytes.NewReader` over the cloned data),
in sequential mode a bounded view sharing the reader cursor
(`io.LimitReader` with the given remaining budget). -/
inductive RContent where
  | owned (data : Bytes)
  | view (limit : Nat)
deriving DecidableEq, Repr

/-- A WARC record as returned by `ReadRecord` (warc.go lines 79 to 83). -/
structure RRecord where
  header : Header
  content : RContent
deriving DecidableEq, Repr

/-- seekRecord (warc.go lines 287 to 320). With no live record it is a
no-op. Otherwise, in sequential mode the unconsumed rest of the live
record content is drained first (the read loop over the LimitReader view,
which consumes at most the remaining budget); the live record is then
forgotten and exactly two empty lines are required. Any non-empty line is
a framing error; end of stream is io.EOF. The state records how far the
cursor moved even on the error paths. -/
def seekRecord (mode : Mode) (rs : RState) : Option WErr × RState :=
  match rs.current with
  | none => (none, rs)
  | some l =>
    let s := if mode = Mode.sequential then rs.stream.drop l else rs.stream
    match readLine s with
    | none => (some WErr.eof, ⟨s, none⟩)
    | some (line1, s1) =>
      if line1 ≠ [] then (some (WErr.framing line1), ⟨s1, none⟩)
      else
        match readLine s1 with
        | none => (some WErr.eof, ⟨s1, none⟩)
        | some (line2, s2) =>
          if line2 ≠ [] then (some (WErr.framing line2), ⟨s2, none⟩)
          else (none, ⟨s2, none⟩)

/-- One step of the header loop of ReadRecord (warc.go lines 258 to 270):
a parsed non-empty line updates the header through `Header.Set` when its
key is non-empty. -/
def headerStep (acc : Header) (line : Bytes) : Header :=
  let kv := splitKeyValue line
  if kv.1 ≠ [] then Header.set acc kv.1 kv.2 else acc

/-- Fuel-driven worker for the header loop; `none` is the io.EOF error
path (readLine failing inside the loop). -/
def parseHeaderFuel : Nat → Bytes → Header → Option (Header × Bytes)
  | 0, _, _ => none
  | f + 1, s, acc =>
    match readLine s with
    | none => none
    | some (line, s1) =>
      if line = [] then some (acc, s1)
      else parseHeaderFuel f s1 (headerStep acc line)

/-- The header loop of ReadRecord. The fuel exceeds the stream length and
never runs out, because every line read strictly shortens the stream; the
unfolding equation `parseHeaderAux_eq` below recovers the Go loop. -/
def parseHeaderAux (s : Bytes) (acc : Header) : Option (Header × Bytes) :=
  parseHeaderFuel (s.length + 1) s acc

/-- Version line plus header block of ReadRecord (warc.go lines 253 to
270): skip one line (the WARC/1.0 marker), then run the header loop.
`none` is the io.EOF error path. -/
def parsePreamble (s : Bytes) : Option (Header × Bytes) :=
  match readLine s with
  | none => none
  | some (_, s1) => parseHeaderAux s1 []

/-- ReadRecord after the seek step (warc.go lines 253 to 284): parse the
preamble, parse `content-length` with Atoi (the raw map read
`header["content-length"]`), then build the record content with
`sliceReader`: asynchronous mode clones `length` bytes out of the stream
(ReadAll over a LimitReader, which silently returns fewer bytes when the
stream ends first, and zero bytes for a negative length); sequential mode
wraps the cursor in a bounded view and consumes nothing yet. -/
def readRecordCore (mode : Mode) (s : Bytes) : Except WErr (RRecord × RState) :=
  match parsePreamble s with
  | none => Except.error WErr.eof
  | some (h, s1) =>
    match atoi (Header.getRaw h (str "content-length")) with
    | none => Except.error WErr.badContentLength
    | some len =>
      match mode with
      | Mode.asynchronous =>
        Except.ok (⟨h, RContent.owned (s1.take len.toNat)⟩,
                   ⟨s1.drop len.toNat, some 0⟩)
      | Mode.sequential =>
        Except.ok (⟨h, RContent.view len.toNat⟩, ⟨s1, some len.toNat⟩)

/-- ReadRecord (warc.go lines 249 to 285). Note that the Go code discards
the error returned by seekRecord at line 252 (`r.seekRecord()` with no
assignment): only the state change of the seek survives. This embedding
reproduces that faithfully by keeping the second component only. -/
def readRecord (mode : Mode) (rs : RState) : Except WErr (RRecord × RState) :=
  readRecordCore mode ((seekRecord mode rs).2).stream

/-- A caller reading a returned record content to exhaustion. An owned
content is independent of the reader; a view consumes from the shared
cursor, yields at most its remaining budget, and leaves the rest of the
budget (non-zero only when the stream ended early) in the reader state. -/
def consumeAll (rec : RRecord) (rs : RState) : Bytes × RState :=
  match rec.content with
  | RContent.owned data => (data, rs)
  | RContent.view l =>
    (rs.stream.take l, ⟨rs.stream.drop l, some (l - rs.stream.length)⟩)

/-- One full iteration of the canonical client loop: ReadRecord, then read
the content to exhaustion before the next call. -/
def readStep (mode : Mode) (rs : RState) : Except WErr (Header × Bytes × RState) :=
  match readRecord mode rs with
  | Except.error e => Except.error e
  | Except.ok (rec, rs1) =>
    let d := consumeAll rec rs1
    Except.ok (rec.header, d.1, d.2)

/-- Fuel-driven client loop: collect records until ReadRecord fails,
returning the collected records and the terminating error (`none` only
when the fuel runs out, which the chosen fuel rules out). -/
def readAllAux (mode : Mode) : Nat → RState → List (Header × Bytes) × Option WErr
  | 0, _ => ([], none)
  | f + 1, rs =>
    match readStep mode rs with
    | Except.error e => ([], some e)
    | Except.ok (h, c, rs1) =>
      let r := readAllAux mode f rs1
      ((h, c) :: r.1, r.2)

/-- Read every record of a stream, consuming each content in full. Every
successful ReadRecord consumes at least the version line, one byte or
more, so `length + 1` iterations always suffice. -/
def readAll (mode : Mode) (s : Bytes) : List (Header × Bytes) × Option WErr :=
  readAllAux mode (s.length + 1) ⟨s, none⟩

/-- Carriage return plus line feed, the line terminator the writer emits. -/
def CRLF : Bytes := [13, 10]

/-- A bare line feed terminator, for the tolerant-input theorems. -/
def LF : Bytes := [10]

/-- Header mutation performed by WriteRecord before emitting (warc.go lines
343 to 353): `content-length` is set to the measured content size,
overwriting any caller value; `warc-date` and `warc-type` are defaulted
when the raw map read yields the empty string (a missing key and an
explicitly empty value are indistinguishable through a Go map read).
`now` stands for `time.Now().Format(time.RFC3339)`. -/
def updateHeader (now : Bytes) (h : Header) (n : Nat) : Header :=
  let h1 := setRaw h (str "content-length") (itoa n)
  let h2 := if Header.getRaw h1 (str "warc-date") = []
            then setRaw h1 (str "warc-date") now else h1
  if Header.getRaw h2 (str "warc-type") = []
  then setRaw h2 (str "warc-type") (str "resource") else h2

/-- One emitted header line, Go `fmt.Fprintf("%s: %s\r\n",
strings.Title(key), value)` (warc.go line 376), with the terminator kept
as a parameter so the line-feed tolerance of the reader can be stated. -/
def fieldLine (eol k v : Bytes) : Bytes := titleStr k ++ str ": " ++ v ++ eol

/-- All header lines, in the iteration order of the association list (Go
map iteration order is unspecified; this fixes one order). -/
def headerLines (eol : Bytes) : Header → Bytes
  | [] => []
  | p :: t => fieldLine eol p.1 p.2 ++ headerLines eol t

/-- The wire form of one record as WriteRecord lays it out (warc.go lines
364 to 382): version line, header lines, blank line, content, and the two
terminating empty lines. -/
def wireRecord (eol now : Bytes) (h : Header) (c : Bytes) : Bytes :=
  str "WARC/1.0" ++ eol ++ headerLines eol (updateHeader now h c.length)
    ++ eol ++ c ++ eol ++ eol

/-- The concatenated wire form of a list of records. -/
def wireAll (eol now : Bytes) : List (Header × Bytes) → Bytes
  | [] => []
  | r :: t => wireRecord eol now r.1 r.2 ++ wireAll eol now t

/-- The header-field loop of WriteRecord, threading the `write` helper
state: running byte total and bytes emitted so far (warc.go lines 355 to
379). -/
def writeFields : Nat × Bytes → Header → Nat × Bytes
  | ws, [] => ws
  | ws, p :: t =>
    writeFields (ws.1 + (fieldLine CRLF p.1 p.2).length,
                 ws.2 ++ fieldLine CRLF p.1 p.2) t

/-- WriteRecord (warc.go lines 336 to 384): read the whole content (here
already a byte list, so no read error), mutate the header, then emit the
version line, the header lines, and the framed content, summing the
written byte counts exactly as the Go `write` closure does. Returns the
total, the emitted bytes, and the mutated header. -/
def writeRecord (now : Bytes) (h : Header) (c : Bytes) : Nat × Bytes × Header :=
  let h2 := updateHeader now h c.length
  let w1 : Nat × Bytes :=
    (0 + (str "WARC/1.0" ++ CRLF).length, [] ++ (str "WARC/1.0" ++ CRLF))
  let w2 := writeFields w1 h2
  let w3 : Nat × Bytes :=
    (w2.1 + (CRLF ++ c ++ CRLF ++ CRLF).length,
     w2.2 ++ (CRLF ++ c ++ CRLF ++ CRLF))
  (w3.1, w3.2, h2)

/-- Write a list of records in order with WriteRecord onto one target. -/
def writeAll (now : Bytes) : List (Header × Bytes) → Bytes
  | [] => []
  | r :: t => (writeRecord now r.1 r.2).2.1 ++ writeAll now t

/-- Compression classification (warc.go lines 85 to 89). -/
inductive CompressionType where
  | compressionNone
  | compressionBZIP
  | compressionGZIP
deriving DecidableEq, Repr

/-- guessCompression (warc.go lines 91 to 108): peek two bytes; 0x42 0x5a
is bzip2, 0x1f 0x8b is gzip; anything else, including a stream shorter
than two bytes (the Peek error is io.EOF, turned into no error), is plain. -/
def guessCompression (s : Bytes) : CompressionType :=
  match s with
  | 66 :: 90 :: _ => CompressionType.compressionBZIP
  | 31 :: 139 :: _ => CompressionType.compressionGZIP
  | _ => CompressionType.compressionNone

/-- Number of Close calls the decompression wrapper forwards to the raw
input stream (warc.go lines 110 to 135): plain and bzip2 streams are
wrapped in `ioutil.NopCloser`, whose Close does nothing; the gzip wrapper
is `gzip.Reader`, whose Close is documented to close only its own
decompressor state and not the underlying reader. No wrapper ever closes
the raw stream (which is only required to be an `io.Reader`). -/
def rawCloses : CompressionType → Nat
  | CompressionType.compressionNone => 0
  | CompressionType.compressionBZIP => 0
  | CompressionType.compressionGZIP => 0

/-- Close-behaviour model of a Reader: the `source` field (none once
closed), together with effect counters for how many times the wrapper
Close ran and how many Close calls reached the raw stream. -/
structure CReader where
  source : Option CompressionType
  sourceCloses : Nat
  rawStreamCloses : Nat
deriving DecidableEq, Repr

/-- A freshly opened reader over a stream classified as `c` (warc.go,
NewReaderMode lines 200 to 212). -/
def newCReader (c : CompressionType) : CReader := ⟨some c, 0, 0⟩

/-- Reader.Close (warc.go lines 214 to 222): when `source` is non-nil,
close it (forwarding whatever the wrapper forwards to the raw stream) and
clear it; otherwise do nothing. -/
def closeReader (r : CReader) : CReader :=
  match r.source with
  | none => r
  | some c =>
    ⟨none, r.sourceCloses + 1, r.rawStreamCloses + rawCloses c⟩

/-- A header key fit for round-tripping: non-empty, ASCII, already
lower-case, and free of the colon and line-terminator bytes. -/
def GoodKey (k : Bytes) : Prop :=
  k ≠ [] ∧ lowerStr k = k ∧ 58 ∉ k ∧ 10 ∉ k ∧ 13 ∉ k ∧ ∀ b ∈ k, b < 128

/-- A header value the wire format can carry at all: ASCII and free of
line terminators. -/
def GoodValue (v : Bytes) : Prop := 10 ∉ v ∧ 13 ∉ v ∧ ∀ b ∈ v, b < 128

/-- A well-formed caller-built header: unique keys (a Go map cannot hold
duplicates) with good keys and values. -/
def GoodHeader (h : Header) : Prop :=
  (h.map Prod.fst).Nodup ∧ ∀ p ∈ h, GoodKey p.1 ∧ GoodValue p.2

/-- A record the writer can frame: good header and a content whose length
fits the signed 64-bit range that Atoi accepts back. -/
def GoodRecord (h : Header) (c : Bytes) : Prop :=
  GoodHeader h ∧ c.length < 2 ^ 63

/-- The extra conditions under which a record survives a write/read
round trip exactly: header values do not change under trimming, a
caller-supplied content-length already equals the measured one, and
warc-date and warc-type are not present with an empty value (WriteRecord
would overwrite all of these). -/
def StrictRecord (h : Header) (c : Bytes) : Prop :=
  GoodRecord h c ∧ (∀ p ∈ h, trimSpace p.2 = p.2) ∧
    (lookupRaw h (str "content-length") = none ∨
     lookupRaw h (str "content-length") = some (itoa c.length)) ∧
    lookupRaw h (str "warc-date") ≠ some [] ∧
    lookupRaw h (str "warc-type") ≠ some []

/-- A timestamp string the wire format can carry (RFC 3339 output always
satisfies this). -/
def GoodNow (now : Bytes) : Prop := 10 ∉ now ∧ 13 ∉ now ∧ ∀ b ∈ now, b < 128

/-- The two line terminators the reader accepts. -/
def GoodEol (eol : Bytes) : Prop := eol = CRLF ∨ eol = LF

/-- The header a round-tripped record comes back with: the mutated header
of the writer, with every value trimmed by the reader. -/
def readbackHeader (now : Bytes) (h : Header) (c : Bytes) : Header :=
  (updateHeader now h c.length).map (fun p => (p.1, trimSpace p.2))

instance (k : Bytes) : Decidable (GoodKey k) := by
  unfold GoodKey; exact inferInstance

instance (v : Bytes) : Decidable (GoodValue v) := by
  unfold GoodValue; exact inferInstance

instance (h : Header) : Decidable (GoodHeader h) := by
  unfold GoodHeader GoodKey GoodValue; exact inferInstance

instance (h : Header) (c : Bytes) : Decidable (GoodRecord h c) := by
  unfold GoodRecord GoodHeader GoodKey GoodValue; exact inferInstance

instance (h : Header) (c : Bytes) : Decidable (StrictRecord h c) := by
  unfold StrictRecord GoodRecord GoodHeader GoodKey GoodValue
  exact inferInstance

instance (now : Bytes) : Decidable (GoodNow now) := by
  unfold GoodNow; exact inferInstance

/-- Unfolding equation of `splitFirst` on a non-empty input. -/
theorem splitFirst_cons (c x : Nat) (rest : Bytes) :
    splitFirst c (x :: rest) =
      if x = c then some ([], rest)
      else (splitFirst c rest).map (fun p => (x :: p.1, p.2)) := rfl

/-- Splitting succeeds exactly by cutting at the first occurrence: the
input is the prefix, the split byte, then the suffix, and the split byte
does not occur in the prefix. -/
theorem splitFirst_structure {c : Nat} :
    ∀ {s a b : Bytes}, splitFirst c s = some (a, b) →
      s = a ++ c :: b ∧ c ∉ a := by
  intro s
  induction s with
  | nil => intro a b h; simp [splitFirst] at h
  | cons x rest ih =>
    intro a b h
    rw [splitFirst_cons] at h
    by_cases hx : x = c
    · rw [if_pos hx] at h
      simp only [Option.some.injEq, Prod.mk.injEq] at h
      obtain ⟨h1, h2⟩ := h
      subst h1; subst h2
      simp [hx]
    · rw [if_neg hx] at h
      cases hs : splitFirst c rest with
      | none => rw [hs] at h; simp at h
      | some p =>
        obtain ⟨pa, pb⟩ := p
        rw [hs] at h
        simp at h
        obtain ⟨h1, h2⟩ := h
        subst h1; subst h2
        obtain ⟨ihs, ihm⟩ := ih hs
        refine ⟨by simp [ihs], ?_⟩
        intro hm
        rcases List.mem_cons.mp hm with h1 | h1
        · exact hx h1.symm
        · exact ihm h1

/-- Splitting a string that starts with a clean prefix cuts inside the
suffix. -/
theorem splitFirst_append {c : Nat} :
    ∀ {l s : Bytes}, c ∉ l →
      splitFirst c (l ++ s) =
        (splitFirst c s).map (fun p => (l ++ p.1, p.2)) := by
  intro l
  induction l with
  | nil =>
    intro s _
    simp only [List.nil_append]
    cases splitFirst c s with
    | none => simp
    | some p => simp
  | cons x rest ih =>
    intro s hc
    have hx : x ≠ c := fun h => hc (by simp [h])
    have hrest : c ∉ rest := fun h => hc (List.mem_cons_of_mem _ h)
    rw [List.cons_append, splitFirst_cons, if_neg hx, ih hrest]
    cases splitFirst c s with
    | none => simp
    | some p => simp

/-- Stripping the carriage return the writer put right before the newline. -/
theorem dropCR_concat (l : Bytes) : dropCR (l ++ [13]) = l := by
  simp [dropCR, List.getLast?_concat, List.dropLast_concat]

/-- A line free of carriage returns is unchanged by the strip. -/
theorem dropCR_of_not_mem {l : Bytes} (h : 13 ∉ l) : dropCR l = l := by
  unfold dropCR
  cases hl : l.getLast? with
  | none => simp
  | some b =>
    by_cases hb : b = 13
    · subst hb
      exact absurd (List.mem_of_mem_getLast? (Option.mem_def.mpr hl)) h
    · simp [hb]

/-- Reading a clean line followed by a terminator and more input yields
that line and the rest, for both accepted terminators. -/
theorem readLine_append {l rest eol : Bytes} (heol : GoodEol eol)
    (h10 : 10 ∉ l) (h13 : 13 ∉ l) :
    readLine (l ++ eol ++ rest) = some (l, rest) := by
  rcases heol with h | h <;> subst h
  · have hre : l ++ CRLF ++ rest = (l ++ [13]) ++ 10 :: rest := by
      simp [CRLF]
    rw [hre]
    have hne : (l ++ [13]) ++ 10 :: rest ≠ [] := by simp
    have hmem : (10 : Nat) ∉ l ++ [13] := by
      intro hm
      rcases List.mem_append.mp hm with hm | hm
      · exact h10 hm
      · simp at hm
    rw [readLine, if_neg hne, splitFirst_append hmem]
    simp [splitFirst, dropCR_concat]
  · have hre : l ++ LF ++ rest = l ++ 10 :: rest := by simp [LF]
    rw [hre]
    have hne : l ++ 10 :: rest ≠ [] := by simp
    rw [readLine, if_neg hne, splitFirst_append h10]
    simp [splitFirst, dropCR_of_not_mem h13]

/-- Every successful line read strictly shortens the stream. -/
theorem readLine_length {s l s1 : Bytes} (h : readLine s = some (l, s1)) :
    s1.length < s.length := by
  unfold readLine at h
  by_cases hs : s = []
  · simp [hs] at h
  · rw [if_neg hs] at h
    cases hsp : splitFirst 10 s with
    | none =>
      rw [hsp] at h
      simp only [Option.some.injEq, Prod.mk.injEq] at h
      obtain ⟨-, h2⟩ := h
      subst h2
      simpa using List.length_pos.mpr hs
    | some p =>
      obtain ⟨a, b⟩ := p
      rw [hsp] at h
      simp only [Option.some.injEq, Prod.mk.injEq] at h
      obtain ⟨-, h2⟩ := h
      subst h2
      obtain ⟨hst, -⟩ := splitFirst_structure hsp
      subst hst
      simp [List.length_append]
      omega

/-- The fuel of the header loop is irrelevant once it exceeds the stream
length: the loop consumes at least one byte per iteration. -/
theorem parseHeaderFuel_congr :
    ∀ f1 f2 s acc, s.length < f1 → s.length < f2 →
      parseHeaderFuel f1 s acc = parseHeaderFuel f2 s acc := by
  intro f1
  induction f1 with
  | zero => intro f2 s acc h1 _; exact absurd h1 (Nat.not_lt_zero _)
  | succ f ih =>
    intro f2 s acc h1 h2
    cases f2 with
    | zero => exact absurd h2 (Nat.not_lt_zero _)
    | succ f2 =>
      simp only [parseHeaderFuel]
      cases hrl : readLine s with
      | none => rfl
      | some p =>
        obtain ⟨line, s1⟩ := p
        by_cases hl : line = []
        · simp [hl]
        · have hlen := readLine_length hrl
          simp only [if_neg hl]
          exact ih f2 s1 (headerStep acc line) (by omega) (by omega)

/-- The header loop satisfies the recurrence of the Go loop (warc.go lines
259 to 270): read a line, stop at an empty line, otherwise accumulate and
continue. In particular the internal fuel never runs out. -/
theorem parseHeaderAux_eq (s : Bytes) (acc : Header) :
    parseHeaderAux s acc =
      match readLine s with
      | none => none
      | some (line, s1) =>
        if line = [] then some (acc, s1)
        else parseHeaderAux s1 (headerStep acc line) := by
  have hun : parseHeaderAux s acc = parseHeaderFuel (s.length + 1) s acc := rfl
  rw [hun]
  simp only [parseHeaderFuel]
  cases hrl : readLine s with
  | none => rfl
  | some p =>
    obtain ⟨line, s1⟩ := p
    by_cases hl : line = []
    · simp [hl]
    · have hlen := readLine_length hrl
      simp only [if_neg hl]
      have hun2 : parseHeaderAux s1 (headerStep acc line) =
          parseHeaderFuel (s1.length + 1) s1 (headerStep acc line) := rfl
      rw [hun2]
      exact parseHeaderFuel_congr s.length (s1.length + 1) s1
        (headerStep acc line) (by omega) (by omega)

/-- Lower-casing absorbs the upper-casing of single bytes. -/
theorem asciiLower_asciiUpper (b : Nat) :
    asciiLower (asciiUpper b) = asciiLower b := by
  unfold asciiLower asciiUpper
  split_ifs <;> omega

/-- Upper-casing either fixes a byte or lands among the upper-case
letters. -/
theorem asciiUpper_cases (b : Nat) :
    asciiUpper b = b ∨ (65 ≤ asciiUpper b ∧ asciiUpper b ≤ 90) := by
  unfold asciiUpper
  split_ifs <;> omega

/-- Every byte of a title-cased string comes from the original, possibly
upper-cased. -/
theorem mem_titleAux {a : Nat} :
    ∀ {prev : Nat} {k : Bytes}, a ∈ titleAux prev k →
      ∃ b ∈ k, a = b ∨ a = asciiUpper b := by
  intro prev k
  induction k generalizing prev with
  | nil => intro h; simp [titleAux] at h
  | cons x rest ih =>
    intro h
    simp only [titleAux] at h
    rcases List.mem_cons.mp h with h1 | h1
    · by_cases hsep : isSepByte prev
      · exact ⟨x, List.mem_cons_self _ _, Or.inr (by simpa [hsep] using h1)⟩
      · exact ⟨x, List.mem_cons_self _ _, Or.inl (by simpa [hsep] using h1)⟩
    · obtain ⟨b, hb, hab⟩ := ih h1
      exact ⟨b, List.mem_cons_of_mem _ hb, hab⟩

/-- A byte outside the upper-case range is in the title-cased string only
if it is in the original. -/
theorem titleStr_not_mem {c : Nat} {k : Bytes}
    (hc : c < 65 ∨ 90 < c) (h : c ∉ k) : c ∉ titleStr k := by
  intro hmem
  obtain ⟨b, hb, hcb⟩ := mem_titleAux hmem
  rcases hcb with rfl | hup
  · exact h hb
  · rcases asciiUpper_cases b with hfix | hrange
    · exact h (by rw [hup, hfix]; exact hb)
    · omega

/-- Title-casing preserves length. -/
theorem titleAux_length : ∀ (prev : Nat) (k : Bytes),
    (titleAux prev k).length = k.length := by
  intro prev k
  induction k generalizing prev with
  | nil => rfl
  | cons x rest ih => simp [titleAux, ih]

/-- Title-casing then lower-casing is plain lower-casing. -/
theorem lowerStr_titleAux : ∀ (prev : Nat) (k : Bytes),
    lowerStr (titleAux prev k) = lowerStr k := by
  intro prev k
  induction k generalizing prev with
  | nil => rfl
  | cons x rest ih =>
    simp only [titleAux, lowerStr, List.map_cons]
    by_cases hsep : isSepByte prev
    · simp only [if_pos hsep, asciiLower_asciiUpper]
      have := ih x
      simp only [lowerStr] at this
      rw [this]
    · simp only [if_neg hsep]
      have := ih x
      simp only [lowerStr] at this
      rw [this]

/-- Title-casing then lower-casing is plain lower-casing. -/
theorem lowerStr_titleStr (k : Bytes) : lowerStr (titleStr k) = lowerStr k :=
  lowerStr_titleAux 32 k

/-- Dropping a leading space byte before trimming changes nothing. -/
theorem trimSpace_cons_space (v : Bytes) : trimSpace (32 :: v) = trimSpace v := by
  simp [trimSpace, List.dropWhile_cons, isSpaceByte]

/-- A string with no space-class bytes is unchanged by trimming. -/
theorem trimSpace_of_no_space {v : Bytes}
    (h : ∀ b ∈ v, isSpaceByte b = false) : trimSpace v = v := by
  have h1 : v.dropWhile isSpaceByte = v := by
    cases v with
    | nil => rfl
    | cons x rest => simp [List.dropWhile_cons, h x (List.mem_cons_self _ _)]
  have h2 : v.reverse.dropWhile isSpaceByte = v.reverse := by
    cases hv : v.reverse with
    | nil => rfl
    | cons x rest =>
      have hx : x ∈ v := by
        have : x ∈ v.reverse := by simp [hv]
        simpa using this
      simp [List.dropWhile_cons, h x hx]
  simp [trimSpace, h1, h2]

/-- A raw write makes the key read back the written value. -/
theorem lookupRaw_setRaw_self :
    ∀ (h : Header) (k v : Bytes), lookupRaw (setRaw h k v) k = some v := by
  intro h k v
  induction h with
  | nil => simp [setRaw, lookupRaw]
  | cons p t ih =>
    obtain ⟨k1, v1⟩ := p
    by_cases hk : k1 = k
    · simp [setRaw, hk, lookupRaw]
    · simp [setRaw, hk, lookupRaw, ih]

/-- A raw write leaves other keys untouched. -/
theorem lookupRaw_setRaw_ne :
    ∀ (h : Header) {k k2 : Bytes} (v : Bytes), k ≠ k2 →
      lookupRaw (setRaw h k2 v) k = lookupRaw h k := by
  intro h k k2 v hne
  have hne2 : ¬(k2 = k) := fun hh => hne hh.symm
  induction h with
  | nil => simp [setRaw, lookupRaw, hne2]
  | cons p t ih =>
    obtain ⟨k1, v1⟩ := p
    by_cases hk : k1 = k2
    · subst hk
      simp [setRaw, lookupRaw, hne2]
    · simp [setRaw, hk, lookupRaw, ih]

/-- Writing a key twice keeps only the second value. -/
theorem setRaw_setRaw_self :
    ∀ (h : Header) (k v v2 : Bytes),
      setRaw (setRaw h k v) k v2 = setRaw h k v2 := by
  intro h k v v2
  induction h with
  | nil => simp [setRaw]
  | cons p t ih =>
    obtain ⟨k1, v1⟩ := p
    by_cases hk : k1 = k
    · simp [setRaw, hk]
    · simp [setRaw, hk, ih]

/-- A deleted key reads back as absent. -/
theorem lookupRaw_eraseRaw_self :
    ∀ (h : Header) (k : Bytes), lookupRaw (eraseRaw h k) k = none := by
  intro h k
  induction h with
  | nil => simp [eraseRaw, lookupRaw]
  | cons p t ih =>
    obtain ⟨k1, v1⟩ := p
    by_cases hk : k1 = k
    · simpa [eraseRaw, hk] using ih
    · simpa [eraseRaw, List.filter_cons, hk, lookupRaw] using ih

/-- A key reads back as absent exactly when it is not among the stored
keys. -/
theorem lookupRaw_eq_none :
    ∀ {h : Header} {k : Bytes},
      lookupRaw h k = none ↔ k ∉ h.map Prod.fst := by
  intro h k
  induction h with
  | nil => simp [lookupRaw]
  | cons p t ih =>
    obtain ⟨k1, v1⟩ := p
    by_cases hk : k1 = k
    · simp [lookupRaw, hk]
    · have hk2 : ¬(k = k1) := fun hh => hk hh.symm
      simp [lookupRaw, hk, ih, hk2]

/-- Writing an absent key appends the binding. -/
theorem setRaw_of_lookup_none :
    ∀ {h : Header} {k : Bytes} (v : Bytes), lookupRaw h k = none →
      setRaw h k v = h ++ [(k, v)] := by
  intro h k v hnone
  induction h with
  | nil => simp [setRaw]
  | cons p t ih =>
    obtain ⟨k1, v1⟩ := p
    simp only [lookupRaw] at hnone
    by_cases hk : k1 = k
    · simp [hk] at hnone
    · rw [if_neg hk] at hnone
      simp [setRaw, hk, ih hnone]

/-- Looking up in a concatenation searches the left part first. -/
theorem lookupRaw_append_of_none :
    ∀ {h1 : Header} (h2 : Header) {k : Bytes}, lookupRaw h1 k = none →
      lookupRaw (h1 ++ h2) k = lookupRaw h2 k := by
  intro h1 h2 k hnone
  induction h1 with
  | nil => simp
  | cons p t ih =>
    obtain ⟨k1, v1⟩ := p
    simp only [lookupRaw] at hnone
    by_cases hk : k1 = k
    · simp [hk] at hnone
    · rw [if_neg hk] at hnone
      simp [lookupRaw, hk, ih hnone]

/-- A left-hand hit also wins in a concatenation. -/
theorem lookupRaw_append_of_some :
    ∀ {h1 : Header} (h2 : Header) {k v : Bytes}, lookupRaw h1 k = some v →
      lookupRaw (h1 ++ h2) k = some v := by
  intro h1 h2 k v hsome
  induction h1 with
  | nil => simp [lookupRaw] at hsome
  | cons p t ih =>
    obtain ⟨k1, v1⟩ := p
    simp only [lookupRaw] at hsome
    by_cases hk : k1 = k
    · simpa [lookupRaw, hk] using hsome
    · rw [if_neg hk] at hsome
      simp [lookupRaw, hk, ih hsome]

/-- A successful lookup exhibits a stored binding. -/
theorem lookupRaw_mem :
    ∀ {h : Header} {k v : Bytes}, lookupRaw h k = some v → (k, v) ∈ h := by
  intro h k v hsome
  induction h with
  | nil => simp [lookupRaw] at hsome
  | cons p t ih =>
    obtain ⟨k1, v1⟩ := p
    simp only [lookupRaw] at hsome
    by_cases hk : k1 = k
    · simp only [if_pos hk, Option.some.injEq] at hsome
      subst hk; subst hsome
      exact List.mem_cons_self _ _
    · rw [if_neg hk] at hsome
      exact List.mem_cons_of_mem _ (ih hsome)

/-- Every binding after a raw write is an old binding or the new one. -/
theorem mem_setRaw :
    ∀ {h : Header} {k v : Bytes} {p : Bytes × Bytes},
      p ∈ setRaw h k v → p ∈ h ∨ p = (k, v) := by
  intro h k v p hmem
  induction h with
  | nil => simpa [setRaw] using hmem
  | cons q t ih =>
    obtain ⟨k1, v1⟩ := q
    by_cases hk : k1 = k
    · simp only [setRaw, if_pos hk] at hmem
      rcases List.mem_cons.mp hmem with h1 | h1
      · exact Or.inr h1
      · exact Or.inl (List.mem_cons_of_mem _ h1)
    · simp only [setRaw, if_neg hk] at hmem
      rcases List.mem_cons.mp hmem with h1 | h1
      · exact Or.inl (by simp [h1])
      · rcases ih h1 with h2 | h2
        · exact Or.inl (List.mem_cons_of_mem _ h2)
        · exact Or.inr h2

/-- Overwriting a present key does not change the key list. -/
theorem map_fst_setRaw_of_some :
    ∀ {h : Header} {k w : Bytes} (v : Bytes), lookupRaw h k = some w →
      (setRaw h k v).map Prod.fst = h.map Prod.fst := by
  intro h k w v hsome
  induction h with
  | nil => simp [lookupRaw] at hsome
  | cons p t ih =>
    obtain ⟨k1, v1⟩ := p
    simp only [lookupRaw] at hsome
    by_cases hk : k1 = k
    · simp [setRaw, hk]
    · rw [if_neg hk] at hsome
      simp [setRaw, hk, ih hsome]

/-- A raw write preserves key uniqueness. -/
theorem setRaw_nodup {h : Header} {k : Bytes} (v : Bytes)
    (hnd : (h.map Prod.fst).Nodup) :
    ((setRaw h k v).map Prod.fst).Nodup := by
  cases hsome : lookupRaw h k with
  | some w => rw [map_fst_setRaw_of_some v hsome]; exact hnd
  | none =>
    rw [setRaw_of_lookup_none v hsome]
    have hk : k ∉ h.map Prod.fst := lookupRaw_eq_none.mp hsome
    simp only [List.map_append, List.map_cons, List.map_nil]
    refine List.Nodup.append hnd (List.nodup_singleton _) ?_
    intro a ha hb
    have hak : a = k := by simpa using hb
    subst hak
    exact hk ha

/-- Trimming all values commutes with lookup. -/
theorem lookupRaw_map_trim :
    ∀ (h : Header) (k : Bytes),
      lookupRaw (h.map (fun p => (p.1, trimSpace p.2))) k =
        (lookupRaw h k).map trimSpace := by
  intro h k
  induction h with
  | nil => simp [lookupRaw]
  | cons p t ih =>
    obtain ⟨k1, v1⟩ := p
    by_cases hk : k1 = k
    · simp [lookupRaw, hk]
    · simp [lookupRaw, hk, ih]

/-- The fuel of the digit printer is irrelevant once it exceeds the
number. -/
theorem natDigitsFuel_congr :
    ∀ f1 f2 n acc, n < f1 → n < f2 →
      natDigitsFuel f1 n acc = natDigitsFuel f2 n acc := by
  intro f1
  induction f1 with
  | zero => intro f2 n acc h1 _; exact absurd h1 (Nat.not_lt_zero _)
  | succ f ih =>
    intro f2 n acc h1 h2
    cases f2 with
    | zero => exact absurd h2 (Nat.not_lt_zero _)
    | succ f2 =>
      simp only [natDigitsFuel]
      by_cases hn : n < 10
      · simp [hn]
      · simp only [if_neg hn]
        have hq : n / 10 < n := Nat.div_lt_self (by omega) (by omega)
        exact ih f2 (n / 10) _ (by omega) (by omega)

/-- The digit printer only prepends to its accumulator. -/
theorem natDigitsFuel_acc :
    ∀ f n acc, natDigitsFuel f n acc = natDigitsFuel f n [] ++ acc := by
  intro f
  induction f with
  | zero => intro n acc; simp [natDigitsFuel]
  | succ f ih =>
    intro n acc
    simp only [natDigitsFuel]
    by_cases hn : n < 10
    · simp [hn]
    · simp only [if_neg hn]
      rw [ih (n / 10) ((48 + n % 10) :: acc), ih (n / 10) [48 + n % 10]]
      simp

/-- Printing a single-digit number. -/
theorem itoa_lt {n : Nat} (h : n < 10) : itoa n = [48 + n] := by
  simp [itoa, natDigitsFuel, h]

/-- Printing a multi-digit number peels off the last digit. -/
theorem itoa_ge {n : Nat} (h : 10 ≤ n) :
    itoa n = itoa (n / 10) ++ [48 + n % 10] := by
  have hq : n / 10 < n := Nat.div_lt_self (by omega) (by omega)
  have h0 : itoa n = natDigitsFuel n (n / 10) [48 + n % 10] := by
    show natDigitsFuel (n + 1) n [] = _
    simp only [natDigitsFuel, if_neg (by omega : ¬n < 10)]
  rw [h0, natDigitsFuel_acc n (n / 10) [48 + n % 10]]
  congr 1
  exact natDigitsFuel_congr n (n / 10 + 1) (n / 10) [] (by omega) (by omega)

/-- Every byte the printer emits is a decimal digit. -/
theorem itoa_digits : ∀ n b, b ∈ itoa n → 48 ≤ b ∧ b ≤ 57 := by
  intro n
  induction n using Nat.strong_induction_on with
  | _ n ih =>
    intro b hb
    by_cases hn : n < 10
    · rw [itoa_lt hn] at hb
      simp at hb
      omega
    · rw [itoa_ge (by omega)] at hb
      rcases List.mem_append.mp hb with h1 | h1
      · exact ih (n / 10) (Nat.div_lt_self (by omega) (by omega)) b h1
      · simp at h1
        omega

/-- The printer never emits the empty string. -/
theorem itoa_ne_nil (n : Nat) : itoa n ≠ [] := by
  by_cases hn : n < 10
  · rw [itoa_lt hn]; simp
  · rw [itoa_ge (by omega)]; simp

/-- Folding the digit accumulator over a printed number recovers it. -/
theorem itoa_foldl : ∀ n a,
    (itoa n).foldl (fun a d => a * 10 + (d - 48)) a =
      a * 10 ^ (itoa n).length + n := by
  intro n
  induction n using Nat.strong_induction_on with
  | _ n ih =>
    intro a
    by_cases hn : n < 10
    · rw [itoa_lt hn]
      simp [pow_one]
    · rw [itoa_ge (by omega)]
      rw [List.foldl_append]
      have hq : n / 10 < n := Nat.div_lt_self (by omega) (by omega)
      rw [ih (n / 10) hq a]
      simp only [List.foldl_cons, List.foldl_nil, List.length_append,
        List.length_cons, List.length_nil]
      have h1 : 48 + n % 10 - 48 = n % 10 := by omega
      rw [h1]
      have hx := Nat.div_add_mod n 10
      calc (a * 10 ^ (itoa (n / 10)).length + n / 10) * 10 + n % 10
          = a * (10 ^ (itoa (n / 10)).length * 10)
              + (10 * (n / 10) + n % 10) := by ring
        _ = a * 10 ^ ((itoa (n / 10)).length + 1) + n := by
              rw [hx, pow_succ]

/-- Parsing a printed number back as an all-digit string. -/
theorem digitsToNat_itoa (n : Nat) : digitsToNat (itoa n) = some n := by
  unfold digitsToNat
  rw [if_neg (itoa_ne_nil n)]
  have hall : (itoa n).all isDigitByte = true := by
    rw [List.all_eq_true]
    intro b hb
    have := itoa_digits n b hb
    simp [isDigitByte]
    omega
  rw [if_pos hall, itoa_foldl n 0]
  simp

/-- Atoi inverts Itoa on every length that fits the signed 64-bit range. -/
theorem atoi_itoa {n : Nat} (h : n < 2 ^ 63) :
    atoi (itoa n) = some ((n : Nat) : Int) := by
  cases hit : itoa n with
  | nil => exact absurd hit (itoa_ne_nil n)
  | cons b t =>
    have hb : 48 ≤ b ∧ b ≤ 57 :=
      itoa_digits n b (by rw [hit]; exact List.mem_cons_self _ _)
    have hb43 : ¬(b = 43) := by omega
    have hb45 : ¬(b = 45) := by omega
    simp only [atoi, hit, if_neg hb43, if_neg hb45]
    rw [← hit, digitsToNat_itoa]
    simp only [one_mul]
    have h2 : (2 : Nat) ^ 63 = 9223372036854775808 := by norm_num
    have h63 : (2 : Int) ^ 63 = 9223372036854775808 := by norm_num
    have hc : -(2 ^ 63 : Int) ≤ (n : Int) ∧ (n : Int) < 2 ^ 63 := by
      rw [h63]
      constructor
      · omega
      · rw [h2] at h; omega
    rw [if_pos hc]

/-- A printed number carries no space-class bytes, so trimming fixes it. -/
theorem trimSpace_itoa (n : Nat) : trimSpace (itoa n) = itoa n := by
  apply trimSpace_of_no_space
  intro b hb
  have := itoa_digits n b hb
  simp [isSpaceByte]
  omega

/-- A printed number contains no line-terminator bytes and is ASCII. -/
theorem itoa_goodValue (n : Nat) : GoodValue (itoa n) := by
  refine ⟨?_, ?_, ?_⟩
  · intro hm; have := itoa_digits n 10 hm; omega
  · intro hm; have := itoa_digits n 13 hm; omega
  · intro b hb; have := itoa_digits n b hb; omega

/-- Looking up through a conditional write of a different key. -/
theorem lookupRaw_setRaw_ite (h : Header) (c : Prop) [Decidable c]
    {k k2 : Bytes} (v : Bytes) (hne : k ≠ k2) :
    lookupRaw (if c then setRaw h k2 v else h) k = lookupRaw h k := by
  split_ifs with hc
  · exact lookupRaw_setRaw_ne h v hne
  · rfl

/-- After the header mutation of WriteRecord, content-length reads back as
the measured length. -/
theorem updateHeader_cl (now : Bytes) (h : Header) (n : Nat) :
    lookupRaw (updateHeader now h n) (str "content-length") = some (itoa n) := by
  simp only [updateHeader]
  rw [lookupRaw_setRaw_ite _ _ _ (by decide),
      lookupRaw_setRaw_ite _ _ _ (by decide),
      lookupRaw_setRaw_self]

/-- A binding whose value would not be overwritten survives one
conditional defaulting write. -/
theorem lookup_after_default (h2 : Header) (key2 dflt : Bytes) {k v : Bytes}
    (hk2 : lookupRaw h2 k = some v) (hne : k = key2 → v ≠ []) :
    lookupRaw (if Header.getRaw h2 key2 = []
               then setRaw h2 key2 dflt else h2) k = some v := by
  by_cases hc : Header.getRaw h2 key2 = []
  · rw [if_pos hc]
    by_cases hkk : k = key2
    · subst hkk
      rw [Header.getRaw, hk2] at hc
      simp at hc
      exact absurd hc (hne rfl)
    · rw [lookupRaw_setRaw_ne _ _ hkk]; exact hk2
  · rw [if_neg hc]; exact hk2

/-- A caller binding unaffected by the mutations of WriteRecord reads back
unchanged from the mutated header. -/
theorem updateHeader_preserve {now : Bytes} {h : Header} {n : Nat}
    {k v : Bytes}
    (hcl : k = str "content-length" → v = itoa n)
    (hwd : lookupRaw h (str "warc-date") ≠ some [])
    (hwt : lookupRaw h (str "warc-type") ≠ some [])
    (hk : lookupRaw h k = some v) :
    lookupRaw (updateHeader now h n) k = some v := by
  have step1 : lookupRaw (setRaw h (str "content-length") (itoa n)) k
      = some v := by
    by_cases hkc : k = str "content-length"
    · subst hkc
      rw [lookupRaw_setRaw_self, hcl rfl]
    · rw [lookupRaw_setRaw_ne _ _ hkc]; exact hk
  have hvwd : k = str "warc-date" → v ≠ [] := by
    intro hkeq hveq
    subst hkeq; subst hveq
    exact hwd hk
  have hvwt : k = str "warc-type" → v ≠ [] := by
    intro hkeq hveq
    subst hkeq; subst hveq
    exact hwt hk
  simp only [updateHeader]
  exact lookup_after_default _ _ _
    (lookup_after_default _ _ _ step1 hvwd) hvwt

/-- The header mutation of WriteRecord preserves key uniqueness. -/
theorem updateHeader_nodup {now : Bytes} {h : Header} {n : Nat}
    (hnd : (h.map Prod.fst).Nodup) :
    ((updateHeader now h n).map Prod.fst).Nodup := by
  simp only [updateHeader]
  split_ifs
  · exact setRaw_nodup _ (setRaw_nodup _ (setRaw_nodup _ hnd))
  · exact setRaw_nodup _ (setRaw_nodup _ hnd)
  · exact setRaw_nodup _ (setRaw_nodup _ hnd)
  · exact setRaw_nodup _ hnd

/-- Every binding of the mutated header is a caller binding or one of the
three bindings WriteRecord installs. -/
theorem updateHeader_mem {now : Bytes} {h : Header} {n : Nat}
    {p : Bytes × Bytes} (hmem : p ∈ updateHeader now h n) :
    p ∈ h ∨ p = (str "content-length", itoa n) ∨ p = (str "warc-date", now)
      ∨ p = (str "warc-type", str "resource") := by
  simp only [updateHeader] at hmem
  split_ifs at hmem
  · rcases mem_setRaw hmem with h1 | h1
    · rcases mem_setRaw h1 with h2 | h2
      · rcases mem_setRaw h2 with h3 | h3
        · exact Or.inl h3
        · exact Or.inr (Or.inl h3)
      · exact Or.inr (Or.inr (Or.inl h2))
    · exact Or.inr (Or.inr (Or.inr h1))
  · rcases mem_setRaw hmem with h1 | h1
    · rcases mem_setRaw h1 with h2 | h2
      · exact Or.inl h2
      · exact Or.inr (Or.inl h2)
    · exact Or.inr (Or.inr (Or.inl h1))
  · rcases mem_setRaw hmem with h1 | h1
    · rcases mem_setRaw h1 with h2 | h2
      · exact Or.inl h2
      · exact Or.inr (Or.inl h2)
    · exact Or.inr (Or.inr (Or.inr h1))
  · rcases mem_setRaw hmem with h1 | h1
    · exact Or.inl h1
    · exact Or.inr (Or.inl h1)

/-- The mutated header is still well formed. -/
theorem updateHeader_good {now : Bytes} {h : Header} {n : Nat}
    (hgh : GoodHeader h) (hnow : GoodNow now) :
    GoodHeader (updateHeader now h n) := by
  refine ⟨updateHeader_nodup hgh.1, ?_⟩
  intro p hp
  rcases updateHeader_mem hp with h1 | h1 | h1 | h1
  · exact hgh.2 p h1
  · subst h1
    exact ⟨(by decide : GoodKey (str "content-length")), itoa_goodValue n⟩
  · subst h1
    exact ⟨(by decide : GoodKey (str "warc-date")), hnow.1, hnow.2.1, hnow.2.2⟩
  · subst h1
    exact ⟨(by decide : GoodKey (str "warc-type")),
           (by decide : GoodValue (str "resource"))⟩

/-- Variant of `readLine_append` in right-associated form. -/
theorem readLine_append2 {l rest eol : Bytes} (heol : GoodEol eol)
    (h10 : 10 ∉ l) (h13 : 13 ∉ l) :
    readLine (l ++ (eol ++ rest)) = some (l, rest) := by
  rw [← List.append_assoc]
  exact readLine_append heol h10 h13

/-- Reading one emitted header line off the stream. -/
theorem readLine_field {eol k v rest2 : Bytes} (heol : GoodEol eol)
    (hk10 : 10 ∉ k) (hk13 : 13 ∉ k) (hv10 : 10 ∉ v) (hv13 : 13 ∉ v) :
    readLine (titleStr k ++ (str ": " ++ (v ++ (eol ++ rest2)))) =
      some (titleStr k ++ (str ": " ++ v), rest2) := by
  have h1 : titleStr k ++ (str ": " ++ (v ++ (eol ++ rest2))) =
      (titleStr k ++ (str ": " ++ v)) ++ eol ++ rest2 := by
    simp [List.append_assoc]
  rw [h1]
  apply readLine_append heol
  · intro hm
    rcases List.mem_append.mp hm with hm | hm
    · exact (titleStr_not_mem (by omega) hk10) hm
    · rcases List.mem_append.mp hm with hm | hm
      · revert hm; decide
      · exact hv10 hm
  · intro hm
    rcases List.mem_append.mp hm with hm | hm
    · exact (titleStr_not_mem (by omega) hk13) hm
    · rcases List.mem_append.mp hm with hm | hm
      · revert hm; decide
      · exact hv13 hm

/-- Parsing one emitted header line back into key and trimmed value. -/
theorem splitKeyValue_field {k v : Bytes} (hgk : GoodKey k) :
    splitKeyValue (titleStr k ++ (str ": " ++ v)) =
      (titleStr k, trimSpace v) := by
  have h58 : (58 : Nat) ∉ titleStr k :=
    titleStr_not_mem (by omega) hgk.2.2.1
  have hcol : str ": " ++ v = 58 :: (32 :: v) := rfl
  rw [hcol]
  unfold splitKeyValue
  rw [splitFirst_append h58]
  have hsp : splitFirst 58 (58 :: (32 :: v)) = some ([], 32 :: v) := by
    simp [splitFirst]
  rw [hsp]
  simp [trimSpace_cons_space]

/-- The reader parses a rendered header block back into the same bindings
with trimmed values, consuming the terminating blank line. -/
theorem parseHeader_render {eol : Bytes} (heol : GoodEol eol) :
    ∀ (hs acc : Header) (rest : Bytes),
      (hs.map Prod.fst).Nodup →
      (∀ p ∈ hs, GoodKey p.1 ∧ 10 ∉ p.2 ∧ 13 ∉ p.2) →
      (∀ p ∈ hs, lookupRaw acc p.1 = none) →
      parseHeaderAux (headerLines eol hs ++ (eol ++ rest)) acc =
        some (acc ++ hs.map (fun p => (p.1, trimSpace p.2)), rest) := by
  intro hs
  induction hs with
  | nil =>
    intro acc rest _ _ _
    have hrl := @readLine_append2 [] rest eol heol (by simp) (by simp)
    simp only [List.nil_append] at hrl
    rw [headerLines, parseHeaderAux_eq]
    simp only [List.nil_append, hrl]
    simp
  | cons p t ih =>
    obtain ⟨k, v⟩ := p
    intro acc rest hnd hgood hfresh
    obtain ⟨hgk, hv10, hv13⟩ := hgood (k, v) (List.mem_cons_self _ _)
    have hline := @readLine_field eol k v
      (headerLines eol t ++ (eol ++ rest)) heol hgk.2.2.2.1 hgk.2.2.2.2.1
      hv10 hv13
    rw [headerLines, parseHeaderAux_eq]
    have hassoc : fieldLine eol k v ++ headerLines eol t ++ (eol ++ rest) =
        titleStr k ++ (str ": " ++ (v ++ (eol ++
          (headerLines eol t ++ (eol ++ rest))))) := by
      simp [fieldLine, List.append_assoc]
    rw [hassoc, hline]
    have hkne : titleStr k ≠ [] := by
      intro hempty
      have hlen := congrArg List.length hempty
      simp only [titleStr, titleAux_length, List.length_nil] at hlen
      exact hgk.1 (List.eq_nil_of_length_eq_zero hlen)
    have hne : titleStr k ++ (str ": " ++ v) ≠ [] := by
      intro hempty
      rcases List.append_eq_nil.mp hempty with ⟨h1, -⟩
      exact hkne h1
    simp only [if_neg hne]
    have hstep : headerStep acc (titleStr k ++ (str ": " ++ v)) =
        acc ++ [(k, trimSpace v)] := by
      simp only [headerStep, splitKeyValue_field hgk]
      rw [if_pos hkne]
      show setRaw acc (lowerStr (titleStr k)) (trimSpace v) = _
      rw [lowerStr_titleStr, hgk.2.1]
      exact setRaw_of_lookup_none _ (hfresh (k, v) (List.mem_cons_self _ _))
    rw [hstep]
    have hknotint : k ∉ t.map Prod.fst := by
      have := hnd
      simp only [List.map_cons] at this
      exact (List.nodup_cons.mp this).1
    have hfresh2 : ∀ q ∈ t, lookupRaw (acc ++ [(k, trimSpace v)]) q.1 = none := by
      intro q hq
      apply lookupRaw_eq_none.mpr
      simp only [List.map_append, List.map_cons, List.map_nil, List.mem_append,
        List.mem_singleton]
      intro hor
      rcases hor with h1 | h1
      · exact absurd h1 (lookupRaw_eq_none.mp (hfresh q (List.mem_cons_of_mem _ hq)))
      · exact hknotint (h1 ▸ List.mem_map_of_mem Prod.fst hq)
    have hnd2 : (t.map Prod.fst).Nodup := by
      have := hnd
      simp only [List.map_cons] at this
      exact (List.nodup_cons.mp this).2
    have hgood2 : ∀ p ∈ t, GoodKey p.1 ∧ 10 ∉ p.2 ∧ 13 ∉ p.2 :=
      fun q hq => hgood q (List.mem_cons_of_mem _ hq)
    rw [ih (acc ++ [(k, trimSpace v)]) rest hnd2 hgood2 hfresh2]
    simp [List.append_assoc]

/-- Seeking with no live record is a no-op (warc.go lines 292 to 294). -/
theorem seekRecord_none (mode : Mode) (s : Bytes) :
    seekRecord mode ⟨s, none⟩ = (none, ⟨s, none⟩) := rfl

/-- The content-length of a freshly parsed round-tripped header is the
printed content length. -/
theorem readback_cl (now : Bytes) (h : Header) (c : Bytes) :
    Header.getRaw (readbackHeader now h c) (str "content-length") =
      itoa c.length := by
  unfold Header.getRaw readbackHeader
  rw [lookupRaw_map_trim, updateHeader_cl]
  simp [trimSpace_itoa]

/-- Reading one record off a stream that starts with its wire form, then
consuming the content in full: both modes return the round-tripped header
and exactly the content bytes, leaving the trailing separator and the rest
in the stream with an exhausted record view. -/
theorem readStep_wire (mode : Mode) {eol now : Bytes} (heol : GoodEol eol)
    (hnow : GoodNow now) {h : Header} {c rest : Bytes}
    (hgr : GoodRecord h c) :
    readStep mode ⟨wireRecord eol now h c ++ rest, none⟩ =
      Except.ok (readbackHeader now h c, c, ⟨eol ++ (eol ++ rest), some 0⟩) := by
  have hgh2 : GoodHeader (updateHeader now h c.length) :=
    updateHeader_good hgr.1 hnow
  have hassoc : wireRecord eol now h c ++ rest =
      str "WARC/1.0" ++ (eol ++ (headerLines eol (updateHeader now h c.length)
        ++ (eol ++ (c ++ (eol ++ (eol ++ rest)))))) := by
    simp [wireRecord, List.append_assoc]
  have hpre : parsePreamble (wireRecord eol now h c ++ rest) =
      some (readbackHeader now h c, c ++ (eol ++ (eol ++ rest))) := by
    unfold parsePreamble
    rw [hassoc, readLine_append2 heol (by decide) (by decide)]
    dsimp only
    rw [parseHeader_render heol (updateHeader now h c.length) []
      (c ++ (eol ++ (eol ++ rest))) hgh2.1
      (fun p hp => ⟨(hgh2.2 p hp).1, (hgh2.2 p hp).2.1, (hgh2.2 p hp).2.2.1⟩)
      (fun p hp => rfl)]
    simp [readbackHeader]
  have hcl : atoi (Header.getRaw (readbackHeader now h c)
      (str "content-length")) = some (c.length : Int) := by
    rw [readback_cl, atoi_itoa hgr.2]
  have htn : ((c.length : Nat) : Int).toNat = c.length := by simp
  unfold readStep
  have hrr : readRecord mode ⟨wireRecord eol now h c ++ rest, none⟩ =
      readRecordCore mode (wireRecord eol now h c ++ rest) := rfl
  rw [hrr]
  unfold readRecordCore
  rw [hpre]
  dsimp only
  rw [hcl]
  dsimp only
  cases mode with
  | asynchronous =>
    dsimp only [consumeAll]
    rw [htn, List.take_left, List.drop_left]
  | sequential =>
    dsimp only [consumeAll]
    rw [htn, List.take_left, List.drop_left]
    have hz : c.length - (c ++ (eol ++ (eol ++ rest))).length = 0 := by
      simp [List.length_append]
    rw [hz]

/-- Seeking across the two-blank-line separator after a fully consumed
record leaves the reader exactly at the next record. -/
theorem seekRecord_boundary {eol : Bytes} (heol : GoodEol eol)
    (mode : Mode) (s : Bytes) :
    seekRecord mode ⟨eol ++ (eol ++ s), some 0⟩ = (none, ⟨s, none⟩) := by
  have h1 := @readLine_append2 [] (eol ++ s) eol heol (by simp) (by simp)
  have h2 := @readLine_append2 [] s eol heol (by simp) (by simp)
  simp only [List.nil_append] at h1 h2
  unfold seekRecord
  dsimp only
  rw [List.drop_zero, ite_self, h1]
  dsimp only
  rw [if_neg (by simp : ¬(([] : Bytes) ≠ []))]
  rw [h2]
  dsimp only
  rw [if_neg (by simp : ¬(([] : Bytes) ≠ []))]

/-- A full client step across the separator equals a step at the record
start. -/
theorem readStep_boundary {eol : Bytes} (heol : GoodEol eol)
    (mode : Mode) (s : Bytes) :
    readStep mode ⟨eol ++ (eol ++ s), some 0⟩ = readStep mode ⟨s, none⟩ := by
  unfold readStep readRecord
  rw [seekRecord_boundary heol, seekRecord_none]

/-- The client loop is insensitive to starting on the separator of a fully
consumed record rather than at the next record start. -/
theorem readAllAux_boundary {eol : Bytes} (heol : GoodEol eol) (mode : Mode)
    (f : Nat) (s : Bytes) :
    readAllAux mode f ⟨eol ++ (eol ++ s), some 0⟩ =
      readAllAux mode f ⟨s, none⟩ := by
  cases f with
  | zero => rfl
  | succ f => simp only [readAllAux, readStep_boundary heol]

/-- A first client step on the empty stream reports clean end of stream. -/
theorem readStep_nil (mode : Mode) :
    readStep mode ⟨[], none⟩ = Except.error WErr.eof := rfl

/-- Reading every record of a rendered record list returns exactly the
round-tripped records followed by clean end of stream, for any surplus
fuel. -/
theorem readAllAux_wire {eol now : Bytes} (heol : GoodEol eol)
    (hnow : GoodNow now) (mode : Mode) :
    ∀ (records : List (Header × Bytes)) (extra : Nat),
      (∀ r ∈ records, GoodRecord r.1 r.2) →
      readAllAux mode (records.length + 1 + extra)
          ⟨wireAll eol now records, none⟩ =
        (records.map (fun r => (readbackHeader now r.1 r.2, r.2)),
         some WErr.eof) := by
  intro records
  induction records with
  | nil =>
    intro extra _
    have hfuel : ([] : List (Header × Bytes)).length + 1 + extra = extra + 1 := by
      simp
      omega
    rw [hfuel]
    simp only [wireAll, readAllAux, readStep_nil, List.map_nil]
  | cons r t ih =>
    intro extra hgood
    obtain ⟨h, c⟩ := r
    have hfuel : ((h, c) :: t).length + 1 + extra =
        (t.length + 1 + extra) + 1 := by
      simp only [List.length_cons]
      omega
    rw [hfuel]
    simp only [wireAll, readAllAux]
    rw [readStep_wire mode heol hnow (hgood (h, c) (List.mem_cons_self _ _))]
    dsimp only
    rw [readAllAux_boundary heol]
    rw [ih extra (fun q hq => hgood q (List.mem_cons_of_mem _ hq))]
    simp

/-- Every rendered record occupies at least one byte on the wire. -/
theorem wireRecord_length_pos (eol now : Bytes) (h : Header) (c : Bytes) :
    1 ≤ (wireRecord eol now h c).length := by
  have h8 : (str "WARC/1.0").length = 8 := rfl
  simp [wireRecord, List.length_append, h8]
  omega

/-- A rendered record list is at least as long as the record count. -/
theorem wireAll_length_ge (eol now : Bytes) :
    ∀ records : List (Header × Bytes),
      records.length ≤ (wireAll eol now records).length := by
  intro records
  induction records with
  | nil => simp [wireAll]
  | cons r t ih =>
    have h1 := wireRecord_length_pos eol now r.1 r.2
    simp only [wireAll, List.length_cons, List.length_append]
    omega

/-- Reading back a rendered record list with the default fuel returns the
round-tripped records and clean end of stream. -/
theorem readAll_wire {eol now : Bytes} (heol : GoodEol eol)
    (hnow : GoodNow now) (mode : Mode) (records : List (Header × Bytes))
    (hgood : ∀ r ∈ records, GoodRecord r.1 r.2) :
    readAll mode (wireAll eol now records) =
      (records.map (fun r => (readbackHeader now r.1 r.2, r.2)),
       some WErr.eof) := by
  unfold readAll
  have hge := wireAll_length_ge eol now records
  have hfuel : (wireAll eol now records).length + 1 =
      records.length + 1 + ((wireAll eol now records).length
        - records.length) := by omega
  rw [hfuel]
  exact readAllAux_wire heol hnow mode records _ hgood

/-- Relation between a sequential-mode reader state and an
asynchronous-mode reader state over the same input: same unread stream,
and when a record is live the sequential side may still carry a positive
leftover view budget only if the stream already ended early. -/
def ModeInv (rs1 rs2 : RState) : Prop :=
  rs1.stream = rs2.stream ∧
    ((rs1.current = none ∧ rs2.current = none) ∨
     (∃ k, rs1.current = some k ∧ rs2.current = some 0 ∧
        (k ≠ 0 → rs1.stream = [])))

/-- With a live record, the sequential drain and the asynchronous no-drain
land on the same stream, so both seeks agree. -/
theorem seekRecord_modeInv {s : Bytes} {k : Nat} (h3 : k ≠ 0 → s = []) :
    seekRecord Mode.sequential ⟨s, some k⟩ =
      seekRecord Mode.asynchronous ⟨s, some 0⟩ := by
  have hdrop : s.drop k = s := by
    cases k with
    | zero => exact List.drop_zero s
    | succ k => rw [h3 (by simp)]; rfl
  unfold seekRecord
  dsimp only
  have e1 : (if Mode.sequential = Mode.sequential then s.drop k else s) = s := by
    rw [if_pos rfl, hdrop]
  have e2 : (if Mode.asynchronous = Mode.sequential then s.drop 0 else s)
      = s := by
    rw [if_neg (by decide)]
  rw [e1, e2]

/-- One full client step in the two modes, from related states: both fail
with the same error, or both return the same header and content bytes and
the successor states are again related. -/
theorem readStep_mode {rs1 rs2 : RState} (hinv : ModeInv rs1 rs2) :
    (∃ e, readStep Mode.sequential rs1 = Except.error e ∧
          readStep Mode.asynchronous rs2 = Except.error e) ∨
    (∃ hd c rs1' rs2',
        readStep Mode.sequential rs1 = Except.ok (hd, c, rs1') ∧
        readStep Mode.asynchronous rs2 = Except.ok (hd, c, rs2') ∧
        ModeInv rs1' rs2') := by
  obtain ⟨s1, c1⟩ := rs1
  obtain ⟨s2, c2⟩ := rs2
  obtain ⟨hs, hcur⟩ := hinv
  dsimp only at hs
  subst hs
  have hseek : (seekRecord Mode.sequential ⟨s1, c1⟩).2.stream =
      (seekRecord Mode.asynchronous ⟨s1, c2⟩).2.stream := by
    rcases hcur with ⟨h1, h2⟩ | ⟨k, h1, h2, h3⟩
    · dsimp only at h1 h2
      subst h1; subst h2
      rfl
    · dsimp only at h1 h2
      subst h1; subst h2
      rw [seekRecord_modeInv (by simpa using h3)]
  set t := (seekRecord Mode.asynchronous ⟨s1, c2⟩).2.stream with ht
  have hr1 : readStep Mode.sequential ⟨s1, c1⟩ =
      match readRecordCore Mode.sequential t with
      | Except.error e => Except.error e
      | Except.ok (rec, rs1) =>
        let d := consumeAll rec rs1
        Except.ok (rec.header, d.1, d.2) := by
    unfold readStep readRecord
    rw [hseek]
  have hr2 : readStep Mode.asynchronous ⟨s1, c2⟩ =
      match readRecordCore Mode.asynchronous t with
      | Except.error e => Except.error e
      | Except.ok (rec, rs1) =>
        let d := consumeAll rec rs1
        Except.ok (rec.header, d.1, d.2) := rfl
  rw [hr1, hr2]
  unfold readRecordCore
  cases hpre : parsePreamble t with
  | none => exact Or.inl ⟨WErr.eof, rfl, rfl⟩
  | some p =>
    obtain ⟨hd, s3⟩ := p
    dsimp only
    cases hcl : atoi (Header.getRaw hd (str "content-length")) with
    | none => exact Or.inl ⟨WErr.badContentLength, rfl, rfl⟩
    | some len =>
      dsimp only [consumeAll]
      refine Or.inr ⟨hd, s3.take len.toNat, _, _, rfl, rfl, rfl, ?_⟩
      refine Or.inr ⟨len.toNat - s3.length, rfl, rfl, ?_⟩
      intro hk
      dsimp only
      exact List.drop_eq_nil_of_le (by omega)

/-- The whole client loop is mode-insensitive from related states. -/
theorem readAllAux_mode :
    ∀ (f : Nat) {rs1 rs2 : RState}, ModeInv rs1 rs2 →
      readAllAux Mode.sequential f rs1 =
        readAllAux Mode.asynchronous f rs2 := by
  intro f
  induction f with
  | zero => intro rs1 rs2 _; rfl
  | succ f ih =>
    intro rs1 rs2 hinv
    rcases readStep_mode hinv with
      ⟨e, h1, h2⟩ | ⟨hd, c, rs1', rs2', h1, h2, hinv'⟩
    · simp only [readAllAux, h1, h2]
    · simp only [readAllAux, h1, h2]
      rw [ih hinv']

/-- Reading a whole stream, consuming every record in full, is
mode-insensitive. -/
theorem readAll_mode (s : Bytes) :
    readAll Mode.sequential s = readAll Mode.asynchronous s := by
  unfold readAll
  exact readAllAux_mode _ ⟨rfl, Or.inl ⟨rfl, rfl⟩⟩

/-- The field loop of WriteRecord accumulates exactly the header lines and
their byte count. -/
theorem writeFields_spec :
    ∀ (hs : Header) (t : Nat) (o : Bytes),
      writeFields (t, o) hs =
        (t + (headerLines CRLF hs).length, o ++ headerLines CRLF hs) := by
  intro hs
  induction hs with
  | nil => intro t o; simp [writeFields, headerLines]
  | cons p ps ih =>
    intro t o
    simp only [writeFields, headerLines]
    rw [ih]
    refine Prod.ext ?_ ?_
    · simp [List.length_append]
      omega
    · simp [List.append_assoc]

/-- WriteRecord emits exactly the wire form of the record and returns its
length together with the mutated header. -/
theorem writeRecord_spec (now : Bytes) (h : Header) (c : Bytes) :
    writeRecord now h c =
      ((wireRecord CRLF now h c).length, wireRecord CRLF now h c,
       updateHeader now h c.length) := by
  unfold writeRecord
  dsimp only
  rw [writeFields_spec]
  refine Prod.ext ?_ (Prod.ext ?_ rfl)
  · simp [wireRecord, List.length_append]
    omega
  · simp [wireRecord, List.append_assoc]

/-- Writing a record list produces the concatenated wire forms. -/
theorem writeAll_eq_wireAll (now : Bytes) :
    ∀ records : List (Header × Bytes),
      writeAll now records = wireAll CRLF now records := by
  intro records
  induction records with
  | nil => rfl
  | cons r t ih =>
    simp only [writeAll, wireAll, writeRecord_spec, ih]

/-- Every caller binding of a strict record survives the full write/read
round trip. -/
theorem readback_preserve {now : Bytes} {h : Header} {c : Bytes}
    (hstrict : StrictRecord h c) {k v : Bytes}
    (hk : lookupRaw h k = some v) :
    lookupRaw (readbackHeader now h c) k = some v := by
  obtain ⟨hgr, htrim, hcl, hwd, hwt⟩ := hstrict
  have hclk : k = str "content-length" → v = itoa c.length := by
    intro hkeq; subst hkeq
    rcases hcl with h1 | h1
    · rw [hk] at h1; exact absurd h1 (by simp)
    · rw [hk] at h1; exact Option.some.inj h1
  have hup := @updateHeader_preserve now h c.length k v hclk hwd hwt hk
  unfold readbackHeader
  rw [lookupRaw_map_trim, hup]
  have hms : Option.map trimSpace (some v) = some (trimSpace v) := rfl
  rw [hms, htrim (k, v) (lookupRaw_mem hk)]

/-- Indexing a mapped list with a default, below the length. -/
theorem getD_map_lt {α β : Type} (f : α → β) :
    ∀ (l : List α) (i : Nat), i < l.length → ∀ (d : α) (d2 : β),
      (l.map f).getD i d2 = f (l.getD i d) := by
  intro l
  induction l with
  | nil => intro i hi; simp at hi
  | cons x t ih =>
    intro i hi d d2
    cases i with
    | zero => simp
    | succ i =>
      simp only [List.map_cons, List.getD_cons_succ]
      exact ih i (by simpa using hi) d d2

/-- Indexing below the length yields a member. -/
theorem getD_mem {α : Type} :
    ∀ (l : List α) (i : Nat), i < l.length → ∀ (d : α), l.getD i d ∈ l := by
  intro l
  induction l with
  | nil => intro i hi; simp at hi
  | cons x t ih =>
    intro i hi d
    cases i with
    | zero => simp
    | succ i =>
      simp only [List.getD_cons_succ]
      exact List.mem_cons_of_mem _ (ih i (by simpa using hi) d)

/-- Anatomy of every successful client step: the content bytes handed out
are exactly a clamped-length prefix of the stream right after the header
block, and the remaining stream is the matching suffix. -/
theorem readStep_content {mode : Mode} {rs : RState} {hd : Header}
    {c : Bytes} {rs' : RState}
    (hok : readStep mode rs = Except.ok (hd, c, rs')) :
    ∃ (n : Int) (s0 : Bytes),
      atoi (Header.getRaw hd (str "content-length")) = some n ∧
      c = s0.take n.toNat ∧ rs'.stream = s0.drop n.toNat := by
  have hcore : readStep mode rs =
      match readRecordCore mode ((seekRecord mode rs).2).stream with
      | Except.error e => Except.error e
      | Except.ok (rec, rs1) =>
        let d := consumeAll rec rs1
        Except.ok (rec.header, d.1, d.2) := rfl
  rw [hcore] at hok
  unfold readRecordCore at hok
  cases hpre : parsePreamble ((seekRecord mode rs).2).stream with
  | none => rw [hpre] at hok; exact absurd hok (by simp)
  | some q =>
    obtain ⟨hd2, s3⟩ := q
    rw [hpre] at hok
    dsimp only at hok
    cases hcl : atoi (Header.getRaw hd2 (str "content-length")) with
    | none => rw [hcl] at hok; exact absurd hok (by simp)
    | some len =>
      rw [hcl] at hok
      cases mode with
      | asynchronous =>
        dsimp only [consumeAll] at hok
        simp only [Except.ok.injEq, Prod.mk.injEq] at hok
        obtain ⟨hhd, hc, hrs⟩ := hok
        exact ⟨len, s3, by rw [← hhd]; exact hcl, hc.symm, by rw [← hrs]⟩
      | sequential =>
        dsimp only [consumeAll] at hok
        simp only [Except.ok.injEq, Prod.mk.injEq] at hok
        obtain ⟨hhd, hc, hrs⟩ := hok
        exact ⟨len, s3, by rw [← hhd]; exact hcl, hc.symm, by rw [← hrs]⟩

/-- ReadRecord reports the content-length parse error exactly when the
version line and header block parse but Atoi rejects the field value. -/
theorem readRecord_badCL_iff (mode : Mode) (rs : RState) :
    readRecord mode rs = Except.error WErr.badContentLength ↔
      ∃ hd s3,
        parsePreamble ((seekRecord mode rs).2).stream = some (hd, s3) ∧
        atoi (Header.getRaw hd (str "content-length")) = none := by
  unfold readRecord readRecordCore
  cases hpre : parsePreamble ((seekRecord mode rs).2).stream with
  | none => simp
  | some q =>
    obtain ⟨hd2, s3⟩ := q
    dsimp only
    cases hcl : atoi (Header.getRaw hd2 (str "content-length")) with
    | none =>
      simp only [hcl]
      constructor
      · intro _; exact ⟨hd2, s3, rfl, hcl⟩
      · intro _; trivial
    | some len =>
      cases mode with
      | asynchronous =>
        dsimp only
        constructor
        · intro hcontr; exact absurd hcontr (by simp)
        · rintro ⟨hd3, s4, heq, hnone⟩
          simp only [Option.some.injEq, Prod.mk.injEq] at heq
          obtain ⟨hh, -⟩ := heq
          rw [← hh, hcl] at hnone
          exact absurd hnone (by simp)
      | sequential =>
        dsimp only
        constructor
        · intro hcontr; exact absurd hcontr (by simp)
        · rintro ⟨hd3, s4, heq, hnone⟩
          simp only [Option.some.injEq, Prod.mk.injEq] at heq
          obtain ⟨hh, -⟩ := heq
          rw [← hh, hcl] at hnone
          exact absurd hnone (by simp)

/-- The wrapper returned by decompress never forwards Close to the raw
stream, whatever the compression type. -/
theorem rawCloses_eq_zero (c : CompressionType) : rawCloses c = 0 := by
  cases c <;> rfl

/-- C1: the claim says that after a returned record, a non-empty line in
place of the trailing blank-line separator makes the next ReadRecord call
return a framing error and no record. The code computes that framing
error in seekRecord but ReadRecord (warc.go line 252) discards it: on the
stream below, the first call returns the first record, seekRecord then
reports the framing error on the line XYZ, yet the second ReadRecord call
still succeeds and returns the following record. -/
theorem c1_seek_error_discarded :
    readRecord Mode.asynchronous
      ⟨str "WARC/1.0\r\nContent-Length: 3\r\n\r\nabcXYZ\r\nWARC/1.0\r\nContent-Length: 2\r\n\r\nok\r\n\r\n", none⟩ =
      Except.ok
        (⟨[(str "content-length", str "3")], RContent.owned (str "abc")⟩,
         ⟨str "XYZ\r\nWARC/1.0\r\nContent-Length: 2\r\n\r\nok\r\n\r\n", some 0⟩) ∧
    (seekRecord Mode.asynchronous
      ⟨str "XYZ\r\nWARC/1.0\r\nContent-Length: 2\r\n\r\nok\r\n\r\n", some 0⟩).1 =
      some (WErr.framing (str "XYZ")) ∧
    readRecord Mode.asynchronous
      ⟨str "XYZ\r\nWARC/1.0\r\nContent-Length: 2\r\n\r\nok\r\n\r\n", some 0⟩ =
      Except.ok
        (⟨[(str "content-length", str "2")], RContent.owned (str "ok")⟩,
         ⟨str "\r\n\r\n", some 0⟩) := by
  decide

/-- C2, counterexample: the claim says end of stream inside a header block
surfaces as an I/O error distinguishable from clean end of stream. On a
stream that ends inside the header block, ReadRecord returns the very same
io.EOF value it returns on the empty stream, so the two cases are not
distinguishable. -/
theorem c2_counterexample :
    readRecord Mode.asynchronous
      ⟨str "WARC/1.0\r\nContent-Length: 3\r\n", none⟩ =
      Except.error WErr.eof ∧
    readRecord Mode.asynchronous ⟨[], none⟩ = Except.error WErr.eof := by
  decide

/-- C2, amended: ReadRecord returns clean end of stream (io.EOF) when the
stream ends exactly at a record boundary, including on the very first call
over an empty stream; but end of stream inside a header block, or inside
the trailing separator after a fully consumed record, surfaces as the very
same io.EOF value, not as a distinguishable error. -/
theorem c2_amended (mode : Mode) (now : Bytes)
    (records : List (Header × Bytes)) (hnow : GoodNow now)
    (hgood : ∀ r ∈ records, GoodRecord r.1 r.2) :
    (readAll mode (writeAll now records)).2 = some WErr.eof ∧
    readRecord mode ⟨[], none⟩ = Except.error WErr.eof ∧
    readRecord mode ⟨str "WARC/1.0\r\nContent-Length: 3\r\n", none⟩ =
      Except.error WErr.eof ∧
    readRecord mode ⟨[], some 0⟩ = Except.error WErr.eof := by
  refine ⟨?_, ?_, ?_, ?_⟩
  · rw [writeAll_eq_wireAll, readAll_wire (Or.inl rfl) hnow mode records hgood]
  · cases mode <;> decide
  · cases mode <;> decide
  · cases mode <;> decide

/-- C2, witness for the amended theorem at a concrete record list. -/
theorem c2_amended_witness :
    GoodNow (str "2020-01-01T00:00:00Z") ∧
    (∀ r ∈ [([(str "warc-type", str "resource")], str "ab")],
      GoodRecord r.1 r.2) ∧
    ((readAll Mode.asynchronous
        (writeAll (str "2020-01-01T00:00:00Z")
          [([(str "warc-type", str "resource")], str "ab")])).2 =
      some WErr.eof ∧
    readRecord Mode.asynchronous ⟨[], none⟩ = Except.error WErr.eof ∧
    readRecord Mode.asynchronous
      ⟨str "WARC/1.0\r\nContent-Length: 3\r\n", none⟩ =
      Except.error WErr.eof ∧
    readRecord Mode.asynchronous ⟨[], some 0⟩ = Except.error WErr.eof) :=
  ⟨by decide, by decide,
   c2_amended Mode.asynchronous (str "2020-01-01T00:00:00Z")
     [([(str "warc-type", str "resource")], str "ab")]
     (by decide) (by decide)⟩

/-- C3, counterexample: the claim says the bytes producible by Content
always equal the parsed content-length value. On a stream whose content
block is truncated by end of stream, asynchronous ReadRecord succeeds and
the owned content holds 2 bytes although content-length parses to 5. -/
theorem c3_counterexample :
    readRecord Mode.asynchronous
      ⟨str "WARC/1.0\r\nContent-Length: 5\r\n\r\nab", none⟩ =
      Except.ok
        (⟨[(str "content-length", str "5")], RContent.owned (str "ab")⟩,
         ⟨[], some 0⟩) ∧
    atoi (str "5") = some 5 ∧ (str "ab").length = 2 := by
  decide

/-- C3, amended: for every record a full client step returns, the content
bytes are exactly the prefix of the stream after the header block of
length min(max(content-length, 0), available), so they equal the parsed
value whenever the stream holds that many bytes, and reading past the
boundary never yields bytes of the next record: content and remaining
stream partition the stream at the content start. -/
theorem c3_amended {mode : Mode} {rs : RState} {hd : Header} {c : Bytes}
    {rs' : RState} (hok : readStep mode rs = Except.ok (hd, c, rs')) :
    ∃ (n : Int) (s0 : Bytes),
      atoi (Header.getRaw hd (str "content-length")) = some n ∧
      c = s0.take n.toNat ∧ rs'.stream = s0.drop n.toNat ∧
      c.length = min n.toNat s0.length ∧ c ++ rs'.stream = s0 := by
  obtain ⟨n, s0, h1, h2, h3⟩ := readStep_content hok
  refine ⟨n, s0, h1, h2, h3, ?_, ?_⟩
  · rw [h2]; exact List.length_take _ _
  · rw [h2, h3]; exact List.take_append_drop _ _

/-- C3, witness for the amended theorem at a concrete truncated stream. -/
theorem c3_amended_witness :
    readStep Mode.asynchronous
      ⟨str "WARC/1.0\r\nContent-Length: 5\r\n\r\nab", none⟩ =
      Except.ok ([(str "content-length", str "5")], str "ab",
        ⟨[], some 0⟩) ∧
    (∃ (n : Int) (s0 : Bytes),
      atoi (Header.getRaw [(str "content-length", str "5")]
        (str "content-length")) = some n ∧
      str "ab" = s0.take n.toNat ∧
      (⟨[], some 0⟩ : RState).stream = s0.drop n.toNat ∧
      (str "ab").length = min n.toNat s0.length ∧
      str "ab" ++ (⟨[], some 0⟩ : RState).stream = s0) :=
  ⟨by decide,
   @c3_amended Mode.asynchronous
     ⟨str "WARC/1.0\r\nContent-Length: 5\r\n\r\nab", none⟩
     [(str "content-length", str "5")] (str "ab") ⟨[], some 0⟩
     (by decide)⟩

/-- C4, counterexample: the claim says a content-length that does not
parse as a non-negative decimal integer yields a fatal parse error.
Atoi accepts a sign, so the negative value -3 parses successfully and
ReadRecord returns a record (with empty content) instead of an error. -/
theorem c4_counterexample :
    atoi (str "-3") = some (-3) ∧
    readRecord Mode.asynchronous
      ⟨str "WARC/1.0\r\nContent-Length: -3\r\n\r\n\r\n\r\n", none⟩ =
      Except.ok
        (⟨[(str "content-length", str "-3")], RContent.owned []⟩,
         ⟨str "\r\n\r\n", some 0⟩) := by
  decide

/-- C4, amended: ReadRecord parses content-length with Atoi, which accepts
an optional leading sign and requires the value to fit a signed 64-bit
integer; the call returns the fatal parse error exactly when the version
line and header block parse but the field value (empty when the field is
missing) is rejected by Atoi. Negative values parse successfully and are
not an error. -/
theorem c4_amended (mode : Mode) (rs : RState) :
    (readRecord mode rs = Except.error WErr.badContentLength ↔
      ∃ hd s3,
        parsePreamble ((seekRecord mode rs).2).stream = some (hd, s3) ∧
        atoi (Header.getRaw hd (str "content-length")) = none) ∧
    atoi (str "-3") = some (-3) ∧ atoi (str "+7") = some 7 ∧
    atoi [] = none ∧ atoi (str "17a") = none :=
  ⟨readRecord_badCL_iff mode rs, by decide, by decide, by decide, by decide⟩

/-- C9, counterexample: the claim says closing the Reader closes the
underlying raw stream transitively exactly once. The decompression
wrappers never forward Close to the raw stream: after closing a freshly
opened reader of any compression type, the raw stream has been closed
zero times, not once. -/
theorem c9_counterexample :
    (closeReader (newCReader CompressionType.compressionNone)).rawStreamCloses
      = 0 ∧
    (closeReader (newCReader CompressionType.compressionGZIP)).rawStreamCloses
      = 0 ∧
    (closeReader (newCReader CompressionType.compressionBZIP)).rawStreamCloses
      = 0 := by
  decide

/-- C9, amended: Reader.Close is idempotent, a second Close is a no-op; it
closes the decompression wrapper exactly once, whatever compression was
detected; but the wrapper never closes the underlying raw stream (the
pass-through and bzip2 wrappers have no-op closers and the gzip wrapper
closes only its own decompressor). -/
theorem c9_amended (r : CReader) (s : Bytes) :
    closeReader (closeReader r) = closeReader r ∧
    (closeReader (newCReader (guessCompression s))).sourceCloses = 1 ∧
    (closeReader (closeReader (newCReader (guessCompression s)))).sourceCloses
      = 1 ∧
    (closeReader (newCReader (guessCompression s))).rawStreamCloses = 0 ∧
    (closeReader (closeReader (newCReader
      (guessCompression s)))).rawStreamCloses = 0 := by
  refine ⟨?_, rfl, rfl, ?_, ?_⟩
  · obtain ⟨src, sc, rc⟩ := r
    cases src with
    | none => rfl
    | some ctype => rfl
  · show 0 + rawCloses (guessCompression s) = 0
    rw [rawCloses_eq_zero]
  · show 0 + rawCloses (guessCompression s) = 0
    rw [rawCloses_eq_zero]

/-- C5, counterexample: the claim promises the read-back header contains
every originally set key/value pair whenever keys are lower-case ASCII
tokens and values carry no CR/LF. The value " x" satisfies that
hypothesis, yet the reader trims header values, so the record written with
the pair (x-note, " x") reads back with (x-note, "x") instead: the
original pair is not contained in the read-back header. -/
theorem c5_counterexample :
    GoodKey (str "x-note") ∧ (10 : Nat) ∉ str " x" ∧ (13 : Nat) ∉ str " x" ∧
    lookupRaw [(str "x-note", str " x")] (str "x-note") = some (str " x") ∧
    (readAll Mode.asynchronous
      (writeAll (str "2020-01-01T00:00:00Z")
        [([(str "x-note", str " x")], str "hi")])).1.length = 1 ∧
    lookupRaw
      (((readAll Mode.asynchronous
          (writeAll (str "2020-01-01T00:00:00Z")
            [([(str "x-note", str " x")], str "hi")])).1.getD 0
        ([], [])).1)
      (str "x-note") = some (str "x") ∧
    ¬(str "x" = str " x") := by
  decide

/-- C5, amended: for every finite record list whose header keys are
non-empty lower-case ASCII tokens free of colons and CR/LF, whose values
are ASCII, free of CR/LF and additionally invariant under space trimming,
where any caller-supplied content-length already equals the measured
content length and warc-date/warc-type are not present with empty values,
writing all records in order with WriteRecord and reading the bytes back
in either mode yields the same number of records with clean end of
stream, and for each position content bytes identical to the original and
a header containing every originally set binding. -/
theorem c5_amended (mode : Mode) (now : Bytes)
    (records : List (Header × Bytes)) (hnow : GoodNow now)
    (hgood : ∀ r ∈ records, StrictRecord r.1 r.2) :
    (readAll mode (writeAll now records)).1.length = records.length ∧
    (readAll mode (writeAll now records)).2 = some WErr.eof ∧
    ∀ i, i < records.length →
      ((readAll mode (writeAll now records)).1.getD i ([], [])).2 =
        (records.getD i ([], [])).2 ∧
      ∀ k v, lookupRaw (records.getD i ([], [])).1 k = some v →
        lookupRaw
          ((readAll mode (writeAll now records)).1.getD i ([], [])).1 k =
          some v := by
  have hgood' : ∀ r ∈ records, GoodRecord r.1 r.2 := fun r hr => (hgood r hr).1
  rw [writeAll_eq_wireAll, readAll_wire (Or.inl rfl) hnow mode records hgood']
  refine ⟨by simp, rfl, ?_⟩
  intro i hi
  rw [getD_map_lt _ records i hi ([], []) ([], [])]
  refine ⟨rfl, ?_⟩
  intro k v hk
  have hmem := getD_mem records i hi ([], [])
  exact readback_preserve (hgood _ hmem) hk

/-- C5, witness for the amended theorem at a concrete record list. -/
theorem c5_amended_witness :
    GoodNow (str "2020-01-01T00:00:00Z") ∧
    (∀ r ∈ [([(str "content-type", str "text/plain")], str "Hello")],
      StrictRecord r.1 r.2) ∧
    ((readAll Mode.sequential
        (writeAll (str "2020-01-01T00:00:00Z")
          [([(str "content-type", str "text/plain")], str "Hello")])).1.length
        = 1 ∧
    (readAll Mode.sequential
        (writeAll (str "2020-01-01T00:00:00Z")
          [([(str "content-type", str "text/plain")], str "Hello")])).2 =
      some WErr.eof ∧
    ∀ i, i < ([([(str "content-type", str "text/plain")],
        str "Hello")] : List (Header × Bytes)).length →
      ((readAll Mode.sequential
          (writeAll (str "2020-01-01T00:00:00Z")
            [([(str "content-type", str "text/plain")],
              str "Hello")])).1.getD i ([], [])).2 =
        (([([(str "content-type", str "text/plain")],
          str "Hello")] : List (Header × Bytes)).getD i ([], [])).2 ∧
      ∀ k v, lookupRaw (([([(str "content-type", str "text/plain")],
          str "Hello")] : List (Header × Bytes)).getD i ([], [])).1 k =
          some v →
        lookupRaw
          ((readAll Mode.sequential
            (writeAll (str "2020-01-01T00:00:00Z")
              [([(str "content-type", str "text/plain")],
                str "Hello")])).1.getD i ([], [])).1 k = some v) :=
  ⟨by decide, by decide,
   c5_amended Mode.sequential (str "2020-01-01T00:00:00Z")
     [([(str "content-type", str "text/plain")], str "Hello")]
     (by decide) (by decide)⟩

/-- C6: for every input stream, reading all records in sequential mode
while fully consuming each record content before the next ReadRecord call
yields exactly the same records (same count, headers and content bytes)
and the same terminating error as asynchronous mode over the same bytes. -/
theorem c6_mode_equivalence (s : Bytes) :
    readAll Mode.sequential s = readAll Mode.asynchronous s :=
  readAll_mode s

/-- C7: WriteRecord emits exactly the version line, one Key: Value CRLF
line per field of the mutated header (content-length overwritten with the
measured byte count, warc-date defaulted to the current RFC 3339 time when
it reads back empty, warc-type defaulted to resource likewise), one blank
CRLF line, the content bytes, and the two terminating CRLF; it returns the
total byte count of everything emitted. -/
theorem c7_writeRecord_exact (now : Bytes) (h : Header) (c : Bytes) :
    (writeRecord now h c).2.1 =
      str "WARC/1.0" ++ CRLF
        ++ headerLines CRLF (updateHeader now h c.length)
        ++ CRLF ++ c ++ CRLF ++ CRLF ∧
    (writeRecord now h c).1 = (writeRecord now h c).2.1.length ∧
    (writeRecord now h c).2.2 = updateHeader now h c.length := by
  have hs := writeRecord_spec now h c
  refine ⟨?_, ?_, ?_⟩
  · rw [hs]; rfl
  · rw [hs]
  · rw [hs]

/-- C8: the Header store is ASCII-case-insensitive: after Set under key k,
Get under any key with the same lower-casing returns the value; after Del
under a case-variant, Get returns the empty string; and setting the same
key twice under any casings keeps only the last value. -/
theorem c8_header_ops (h : Header) (v v2 : Bytes) (k k2 : Bytes)
    (hkk : lowerStr k = lowerStr k2) :
    Header.get (Header.set h k v) k2 = v ∧
    Header.get (Header.del h k2) k = [] ∧
    Header.set (Header.set h k v) k2 v2 = Header.set h k2 v2 := by
  refine ⟨?_, ?_, ?_⟩
  · unfold Header.get Header.set
    rw [← hkk, lookupRaw_setRaw_self]
    rfl
  · unfold Header.get Header.del
    rw [hkk, lookupRaw_eraseRaw_self]
    rfl
  · unfold Header.set
    rw [hkk, setRaw_setRaw_self]

/-- C8, witness at concrete keys differing only in ASCII case. -/
theorem c8_header_ops_witness :
    lowerStr (str "Warc-Type") = lowerStr (str "WARC-TYPE") ∧
    (Header.get (Header.set [(str "other", str "x")] (str "Warc-Type")
        (str "a")) (str "WARC-TYPE") = str "a" ∧
    Header.get (Header.del [(str "other", str "x")] (str "WARC-TYPE"))
      (str "Warc-Type") = [] ∧
    Header.set (Header.set [(str "other", str "x")] (str "Warc-Type")
        (str "a")) (str "WARC-TYPE") (str "b") =
      Header.set [(str "other", str "x")] (str "WARC-TYPE") (str "b")) :=
  ⟨by decide,
   c8_header_ops [(str "other", str "x")] (str "a") (str "b")
     (str "Warc-Type") (str "WARC-TYPE") (by decide)⟩

/-- C10: the Reader accepts bare line feeds in place of CRLF: rendering a
well-formed record list with every line terminator (version line, header
lines, blank separator, the two trailing blank lines) written as a single
line feed parses back, in either mode, to exactly the same records as the
CRLF stream WriteRecord produces. -/
theorem c10_bare_lf (mode : Mode) (now : Bytes)
    (records : List (Header × Bytes)) (hnow : GoodNow now)
    (hgood : ∀ r ∈ records, GoodRecord r.1 r.2) :
    readAll mode (wireAll LF now records) =
      readAll mode (wireAll CRLF now records) ∧
    wireAll CRLF now records = writeAll now records := by
  constructor
  · rw [readAll_wire (Or.inr rfl) hnow mode records hgood,
        readAll_wire (Or.inl rfl) hnow mode records hgood]
  · exact (writeAll_eq_wireAll now records).symm

/-- C10, witness at a concrete record list. -/
theorem c10_bare_lf_witness :
    GoodNow (str "2020-01-01T00:00:00Z") ∧
    (∀ r ∈ [([(str "warc-type", str "resource")], str "ab")],
      GoodRecord r.1 r.2) ∧
    (readAll Mode.asynchronous
        (wireAll LF (str "2020-01-01T00:00:00Z")
          [([(str "warc-type", str "resource")], str "ab")]) =
      readAll Mode.asynchronous
        (wireAll CRLF (str "2020-01-01T00:00:00Z")
          [([(str "warc-type", str "resource")], str "ab")]) ∧
    wireAll CRLF (str "2020-01-01T00:00:00Z")
        [([(str "warc-type", str "resource")], str "ab")] =
      writeAll (str "2020-01-01T00:00:00Z")
        [([(str "warc-type", str "resource")], str "ab")]) :=
  ⟨by decide, by decide,
   c10_bare_lf Mode.asynchronous (str "2020-01-01T00:00:00Z")
     [([(str "warc-type", str "resource")], str "ab")]
     (by decide) (by decide)⟩
